import Mathlib

/-!
Verification of the cookiecutter hierarchical context-resolution engine:
a shallow embedding of `cookiecutter/variables.py`, `cookiecutter/prompt.py`
and `cookiecutter/replay.py`, together with theorems settling the spec
claims about them.

Modelling conventions:
* Python's dynamically typed raw values (`None`, `bool`, `int`, `str`,
  `list`, `dict`) become the inductive `RawVal`.
* The Jinja environment is out of scope of the core (the spec treats it as
  a pure function), so string rendering is a parameter
  `Renderer : String → Ctx → Except Unit String`; a `.error` result stands
  for Jinja's `UndefinedError`.
* `OrderedDict` becomes an association list with Python's assignment
  semantics (`ctxSet`: update in place keeping position, else append).
* Interactive input is an `Oracle` giving the already-validated answer of
  each `read_user_*` call (the retry loops of rich's prompts always
  terminate with a validated answer).
* Every resolver function additionally returns the list of `Event`s it
  produced — ghost instrumentation recording which variables were prompted
  and which flat keys were written, used to state prompting and
  append-only claims.  Exceptions are modelled by `Except Err`.
-/

/-- A dynamically typed raw value, as found in `cookiecutter.json` trees:
`None`, booleans, integers, strings, lists and (ordered) dicts. -/
inductive RawVal where
  | null
  | bool (b : Bool)
  | int (n : Int)
  | str (s : String)
  | list (xs : List RawVal)
  | dict (xs : List (RawVal × RawVal))

mutual

/-- Python `==` on raw values (no bool/int unification: the trees the
claims are about never compare `True` with `1`). -/
def RawVal.beq : RawVal → RawVal → Bool
  | .null, .null => true
  | .bool a, .bool b => a == b
  | .int a, .int b => a == b
  | .str a, .str b => a == b
  | .list a, .list b => RawVal.beqList a b
  | .dict a, .dict b => RawVal.beqPairs a b
  | _, _ => false

/-- Elementwise `==` on lists of raw values. -/
def RawVal.beqList : List RawVal → List RawVal → Bool
  | [], [] => true
  | a :: as, b :: bs => RawVal.beq a b && RawVal.beqList as bs
  | _, _ => false

/-- Pairwise `==` on dict entries. -/
def RawVal.beqPairs : List (RawVal × RawVal) → List (RawVal × RawVal) → Bool
  | [], [] => true
  | (ka, va) :: as, (kb, vb) :: bs =>
      RawVal.beq ka kb && RawVal.beq va vb && RawVal.beqPairs as bs
  | _, _ => false

end

instance : BEq RawVal := ⟨RawVal.beq⟩

/-- Shape test used by `isinstance(v.value, dict)` dispatch. -/
def RawVal.isDict : RawVal → Bool
  | .dict _ => true
  | _ => false

/-- Shape test used by `isinstance(v.value, list)` dispatch. -/
def RawVal.isList : RawVal → Bool
  | .list _ => true
  | _ => false

/-- Python truthiness of a raw value (`if template:`). -/
def RawVal.truthy : RawVal → Bool
  | .null => false
  | .bool b => b
  | .int n => n != 0
  | .str s => s != ""
  | .list xs => !xs.isEmpty
  | .dict xs => !xs.isEmpty

/-- The class `CookiecutterVariable` from `variables.py`: a named tree node with a
raw default value, a prompt, branch children (source field `variables`,
renamed `subvars` because `variables` is a Lean keyword), a `matches`
guard (renamed `matchesVal`, likewise) and optional metadata. -/
inductive CookiecutterVariable where
  | mk (name : String) (value : RawVal) (prompt : String)
       (subvars : List CookiecutterVariable)
       (matchesVal : RawVal) (metadata : Option RawVal)

namespace CookiecutterVariable

def name : CookiecutterVariable → String
  | .mk n _ _ _ _ _ => n

def value : CookiecutterVariable → RawVal
  | .mk _ v _ _ _ _ => v

def promptText : CookiecutterVariable → String
  | .mk _ _ p _ _ _ => p

/-- The branch children (source field `variables`). -/
def subvars : CookiecutterVariable → List CookiecutterVariable
  | .mk _ _ _ vs _ _ => vs

/-- The branch-activation guard (source field `matches`). -/
def matchesVal : CookiecutterVariable → RawVal
  | .mk _ _ _ _ m _ => m

def metadata : CookiecutterVariable → Option RawVal
  | .mk _ _ _ _ _ md => md

/-- Method `get_metadata` from `variables.py`. -/
def get_metadata (v : CookiecutterVariable) : Option RawVal := v.metadata

end CookiecutterVariable

/-- The growing resolved context (`cookiecutter_dict`, an `OrderedDict`). -/
abbrev Ctx := List (String × RawVal)

/-- Python's `k in d` on an ordered mapping. -/
def containsKey {α : Type} : List (String × α) → String → Bool
  | [], _ => false
  | p :: rest, k => p.1 == k || containsKey rest k

/-- Python dict assignment `d[k] = v`: update in place (keeping the key's
original position) when present, else append. -/
def ctxSet {α : Type} (c : List (String × α)) (k : String) (v : α) :
    List (String × α) :=
  if containsKey c k then c.map (fun p => if p.1 == k then (k, v) else p)
  else c ++ [(k, v)]

/-- Python dict lookup `d[k]` / `d.get(k)` as an `Option`. -/
def ctxGet? {α : Type} : List (String × α) → String → Option α
  | [], _ => none
  | p :: rest, k => if p.1 == k then some p.2 else ctxGet? rest k

/-- Ghost events: which variable names were prompted interactively, and
which flat keys were written with which values. -/
inductive Event where
  | promptText (name : String)
  | promptYesNo (name : String)
  | promptChoice (name : String)
  | promptDict (name : String)
  | write (key : String) (val : RawVal)

abbrev Log := List Event

/-- The flat keys written, in order, according to the ghost log. -/
def writeKeys (l : Log) : List String :=
  l.filterMap (fun e => match e with | .write k _ => some k | _ => none)

/-- The prompting events of a ghost log. -/
def promptEvents (l : Log) : Log :=
  l.filter (fun e => match e with | .write _ _ => false | _ => true)

/-- Python `s.startswith(pre)`, decided on the character data (the
built-in `String.startsWith` is byte-position based and does not reduce
in the kernel). -/
def strStartsWith (s pre : String) : Bool :=
  pre.data.isPrefixOf s.data

/-- Python `s.endswith(suf)`, decided on the character data. -/
def strEndsWith (s suf : String) : Bool :=
  suf.data.isSuffixOf s.data

/-- Exceptions of the embedded code. -/
inductive Err where
  /-- Jinja's `UndefinedError`. -/
  | undefined
  /-- `UndefinedVariableInTemplate`, wrapping an `UndefinedError`. -/
  | undefinedInTemplate (name : String)
  | keyError (k : String)
  | valueError (msg : String)
  | typeError
  | attributeError
  | indexError
  | ioError (f : String)

/-- The external Jinja string-rendering boundary:
`render(template_string, bindings) -> string`, failing on an undefined
template reference. -/
abbrev Renderer := String → Ctx → Except Unit String

/-- Validated operator answers for the four `read_user_*` operations
(an answer is only consulted when the corresponding prompt fires). -/
structure Oracle where
  /-- Answer of `read_user_variable` given variable name and default. -/
  askText : String → RawVal → RawVal
  /-- Answer of `read_user_yes_no` given variable name and default. -/
  askYesNo : String → Bool → Bool
  /-- Chosen option of `read_user_choice`; taken modulo the number of
  options since rich validates the numeric answer. -/
  askChoice : String → Nat
  /-- Answer of `read_user_dict` (always a JSON dict, by `process_json`
  validation) given variable name and rendered default. -/
  askDict : String → RawVal → List (RawVal × RawVal)

mutual

/-- Function `render_variable` from `prompt.py`: `None` and booleans pass through,
dicts render keys and values, lists render elementwise, anything else is
coerced to a string and rendered as a template. -/
def render_variable (r : Renderer) (ctx : Ctx) : RawVal → Except Unit RawVal
  | .null => .ok .null
  | .bool b => .ok (.bool b)
  | .int n => (r (toString n) ctx).map .str
  | .str s => (r s ctx).map .str
  | .list xs => (render_list r ctx xs).map .list
  | .dict xs => (render_pairs r ctx xs).map .dict

/-- The function `render_variable` mapped over a raw list. -/
def render_list (r : Renderer) (ctx : Ctx) : List RawVal → Except Unit (List RawVal)
  | [] => .ok []
  | x :: xs => do
      let y ← render_variable r ctx x
      let ys ← render_list r ctx xs
      .ok (y :: ys)

/-- The function `render_variable` mapped over dict entries (keys and values). -/
def render_pairs (r : Renderer) (ctx : Ctx) :
    List (RawVal × RawVal) → Except Unit (List (RawVal × RawVal))
  | [] => .ok []
  | (k, v) :: xs => do
      let k2 ← render_variable r ctx k
      let v2 ← render_variable r ctx v
      let rest ← render_pairs r ctx xs
      .ok ((k2, v2) :: rest)

end

/-- Python `val["name"]`-style indexing of a raw value by a string key:
`KeyError` when the dict lacks the key, `TypeError` on a non-dict. -/
def rawIndex : RawVal → String → Except Err RawVal
  | .dict xs, k =>
      match xs.find? (fun p => match p.1 with | .str s => s == k | _ => false) with
      | some p => .ok p.2
      | none => .error (.keyError k)
  | _, _ => .error .typeError

/-- Function `read_user_variable`: free-text prompt returning the validated answer. -/
def read_user_variable (o : Oracle) (var_name : String) (default : RawVal) :
    RawVal := o.askText var_name default

/-- Function `read_user_yes_no`: yes/no prompt returning the validated boolean. -/
def read_user_yes_no (o : Oracle) (var_name : String) (default : Bool) :
    Bool := o.askYesNo var_name default

/-- Function `_prompts_from_options` from `prompt.py`, reduced to its observable
effect outside display: it iterates the options and reads `opt["name"]`
from each, so it fails on a non-list or on an option without a name.
The human-readable labels it builds are display-only and omitted. -/
def validate_options : List RawVal → Except Err Unit
  | [] => .ok ()
  | opt :: rest => do
      let _ ← rawIndex opt "name"
      validate_options rest

/-- Function `read_user_choice` from `prompt.py`: raises `ValueError` on an empty
option list, builds the numbered menu (reading each option's `"name"`),
and returns the option chosen by the operator (the first by default). -/
def read_user_choice (o : Oracle) (var_name : String) (options : List RawVal) :
    Except Err RawVal :=
  if options.isEmpty then .error (.valueError "")
  else do
    let _ ← validate_options options
    .ok (options.getD (o.askChoice var_name % options.length) .null)

/-- Function `read_user_dict` from `prompt.py`: raises `TypeError` when the default
is not a dict, else returns the operator's JSON-dict answer. -/
def read_user_dict (o : Oracle) (var_name : String) (default : RawVal) :
    Except Err RawVal :=
  match default with
  | .dict xs => .ok (.dict (o.askDict var_name (.dict xs)))
  | _ => .error .typeError

/-- Function `prompt_choice_for_config` from `prompt.py`: render every option
against the context so far; non-interactively take the first
(`IndexError` on an empty list), else ask the operator. -/
def prompt_choice_for_config (r : Renderer) (o : Oracle) (ctx : Ctx)
    (key : String) (options : List RawVal) (no_input : Bool) :
    Except Err RawVal := do
  let rendered ← (render_list r ctx options).mapError (fun _ => Err.undefined)
  if no_input then
    match rendered with
    | [] => .error .indexError
    | x :: _ => .ok x
  else
    read_user_choice o key rendered

/-- The `if`/`elif` chain of `get_cookiecutter_values`: resolve a single
variable's own value (choice / boolean / regular; a dict value falls
through, storing nothing) and store it under `parent + v.name`.  Returns
the updated context and the ghost events produced. -/
def resolve_self (r : Renderer) (o : Oracle) (no_input : Bool)
    (v : CookiecutterVariable) (ctx : Ctx) (parent : String) :
    Except Err (Ctx × Log) :=
  let key := parent ++ v.name
  match v.value with
  | .list opts => do
      let val ← prompt_choice_for_config r o ctx v.name opts no_input
      let pl : Log := if no_input then [] else [.promptChoice v.name]
      let nm ← rawIndex val "name"
      .ok (ctxSet ctx key nm, pl ++ [.write key nm])
  | .bool b => do
      if no_input then do
        let val ← (render_variable r ctx (.bool b)).mapError (fun _ => Err.undefined)
        .ok (ctxSet ctx key val, [.write key val])
      else
        let ans := RawVal.bool (read_user_yes_no o v.name b)
        .ok (ctxSet ctx key ans, [.promptYesNo v.name, .write key ans])
  | .dict _ => .ok (ctx, [])
  | other => do
      let val ← (render_variable r ctx other).mapError (fun _ => Err.undefined)
      if no_input then
        .ok (ctxSet ctx key val, [.write key val])
      else
        let ans := read_user_variable o v.name val
        .ok (ctxSet ctx key ans, [.promptText v.name, .write key ans])

mutual

/-- Function `get_cookiecutter_values` from `prompt.py`: resolve the variable's own
value, then walk its branch children, recursing (with the flat key plus
`"/"` as the new prefix) into exactly those whose `matches` equals the
value currently stored under the flat key. -/
def get_cookiecutter_values (r : Renderer) (o : Oracle) (no_input : Bool) :
    CookiecutterVariable → Ctx → String → Except Err (Ctx × Log)
  | .mk nm value prompt vs m md, ctx, parent => do
      let (ctx1, l1) ←
        resolve_self r o no_input (.mk nm value prompt vs m md) ctx parent
      let (ctx2, l2) ← gccv_branches r o no_input vs (parent ++ nm) ctx1
      .ok (ctx2, l1 ++ l2)

/-- The `for branch in v.variables` loop of `get_cookiecutter_values`:
look up the value stored under the parent's flat key (`KeyError` when
absent) and recurse into branches whose `matches` equals it. -/
def gccv_branches (r : Renderer) (o : Oracle) (no_input : Bool) :
    List CookiecutterVariable → String → Ctx → Except Err (Ctx × Log)
  | [], _, ctx => .ok (ctx, [])
  | b :: rest, key, ctx =>
      match ctxGet? ctx key with
      | none => .error (.keyError key)
      | some stored =>
          if b.matchesVal == stored then do
            let (ctx1, l1) ← get_cookiecutter_values r o no_input b ctx (key ++ "/")
            let (ctx2, l2) ← gccv_branches r o no_input rest key ctx1
            .ok (ctx2, l1 ++ l2)
          else
            gccv_branches r o no_input rest key ctx

end

/-- One iteration of the first pass of `prompt_for_config`: single-marker
names are copied verbatim, double-marker names are rendered and stored
(an `UndefinedError` there propagates unwrapped, as in the source, where
those two cases sit before the `try`), all other variables go through
`get_cookiecutter_values` with `UndefinedError` wrapped into
`UndefinedVariableInTemplate`. -/
def pass1_step (r : Renderer) (o : Oracle) (no_input : Bool)
    (v : CookiecutterVariable) (ctx : Ctx) : Except Err (Ctx × Log) :=
  if strStartsWith v.name "_" && !(strStartsWith v.name "__") then
    .ok (ctxSet ctx v.name v.value, [.write v.name v.value])
  else if strStartsWith v.name "__" then
    match render_variable r ctx v.value with
    | .error _ => .error .undefined
    | .ok val => .ok (ctxSet ctx v.name val, [.write v.name val])
  else
    match get_cookiecutter_values r o no_input v ctx "" with
    | .error .undefined => .error (.undefinedInTemplate v.name)
    | res => res

/-- One iteration of the second pass of `prompt_for_config`: skip
single-marker names; for dict-valued variables render against the current
context (wrapping `UndefinedError`), ask the operator unless non-
interactive or double-marker, and store; all other variables are
untouched. -/
def pass2_step (r : Renderer) (o : Oracle) (no_input : Bool)
    (v : CookiecutterVariable) (ctx : Ctx) : Except Err (Ctx × Log) :=
  if strStartsWith v.name "_" && !(strStartsWith v.name "__") then .ok (ctx, [])
  else
    match v.value with
    | .dict d =>
        (match render_variable r ctx (.dict d) with
         | .error _ => .error (.undefinedInTemplate v.name)
         | .ok val =>
            if !no_input && !(strStartsWith v.name "__") then do
              let ans ← read_user_dict o v.name val
              .ok (ctxSet ctx v.name ans, [.promptDict v.name, .write v.name ans])
            else
              .ok (ctxSet ctx v.name val, [.write v.name val]))
    | _ => .ok (ctx, [])

/-- The first pass of `prompt_for_config` over the top-level variables. -/
def run_pass1 (r : Renderer) (o : Oracle) (no_input : Bool) :
    List CookiecutterVariable → Ctx → Except Err (Ctx × Log)
  | [], ctx => .ok (ctx, [])
  | v :: rest, ctx => do
      let (ctx1, l1) ← pass1_step r o no_input v ctx
      let (ctx2, l2) ← run_pass1 r o no_input rest ctx1
      .ok (ctx2, l1 ++ l2)

/-- The second pass of `prompt_for_config` over the top-level variables. -/
def run_pass2 (r : Renderer) (o : Oracle) (no_input : Bool) :
    List CookiecutterVariable → Ctx → Except Err (Ctx × Log)
  | [], ctx => .ok (ctx, [])
  | v :: rest, ctx => do
      let (ctx1, l1) ← pass2_step r o no_input v ctx
      let (ctx2, l2) ← run_pass2 r o no_input rest ctx1
      .ok (ctx2, l1 ++ l2)

/-- Function `prompt_for_config` from `prompt.py`, taking the top-level variable
list of `context['cookiecutter']`: the two passes over the same ordered
traversal, starting from an empty ordered context.  (The `[i/n]` display
prefixes of the source are presentation-only and omitted.) -/
def prompt_for_config (r : Renderer) (o : Oracle) (no_input : Bool)
    (vars : List CookiecutterVariable) : Except Err (Ctx × Log) := do
  let (ctx1, l1) ← run_pass1 r o no_input vars []
  let (ctx2, l2) ← run_pass2 r o no_input vars ctx1
  .ok (ctx2, l1 ++ l2)

/-- Function `prompt_choice_for_template` from `prompt.py`: build the friendly
prompts from the options (which validates that the metadata is an option
list whose entries carry a `"name"`), then return the first option when
non-interactive, else ask the operator.  A `None` or scalar metadata is
not iterable (`TypeError`); iterating a dict yields its string keys, whose
`["name"]` indexing also raises `TypeError`. -/
def prompt_choice_for_template (o : Oracle) (options : Option RawVal)
    (no_input : Bool) : Except Err RawVal := do
  let opts ← match options with
    | some (.list xs) => Except.ok xs
    | _ => Except.error Err.typeError
  let _ ← validate_options opts
  if no_input then
    match opts with
    | [] => .error .indexError
    | x :: _ => .ok x
  else
    read_user_choice o "template" opts

/-- Whether a POSIX path string is absolute (`Path.is_absolute`), decided
on the character data so that list reasoning applies. -/
def isAbsolutePath (s : String) : Bool :=
  match s.data with
  | c :: _ => c == '/'
  | [] => false

/-- Split character data at `'/'` separators. -/
def splitSlash : List Char → List (List Char)
  | [] => [[]]
  | c :: rest =>
      match splitSlash rest with
      | [] => [[]]
      | g :: gs => if c == '/' then [] :: g :: gs else (c :: g) :: gs

/-- Split a path into its meaningful segments (dropping empty segments
and `"."`), as `Path` normalization does. -/
def pathSegs (s : String) : List String :=
  ((splitSlash s.data).map (fun cs => String.mk cs)).filter
    (fun x => x != "" && x != ".")

/-- Lexical `Path.resolve()` of `base / rel` for an absolute `base`
(no symlinks): `".."` pops a segment, popping above the root stays at
the root. -/
def pathResolve (base rel : String) : String :=
  let segs := (pathSegs base ++ pathSegs rel).foldl
    (fun acc seg => if seg == ".." then acc.dropLast else acc ++ [seg]) []
  "/" ++ String.intercalate "/" segs

/-- Function `choose_nested_template` from `prompt.py`: resolve the template choice
from the node's metadata, read its `"path"`, reject a falsy path or an
absolute path as an illegal configuration, and return the resolved join
with the repository directory.  `repo_dir` is taken as an absolute path
(the source resolves it against the working directory first). -/
def choose_nested_template (o : Oracle) (template_variable : CookiecutterVariable)
    (repo_dir : String) (no_input : Bool) : Except Err String := do
  let val ← prompt_choice_for_template o template_variable.get_metadata no_input
  let template ← rawIndex val "path"
  if template.truthy then
    match template with
    | .str s =>
        if isAbsolutePath s then .error (.valueError "Illegal template path")
        else .ok (pathResolve repo_dir s)
    | _ => .error .typeError
  else
    .error (.valueError "Illegal template path")

/-- A YAML mapping document, as held in a replay file. -/
abbrev Doc := List (String × RawVal)

/-- The replay directory's files, keyed by file name (the filesystem at
the serialization boundary; YAML encoding itself is out of scope, so a
file holds the document structurally). -/
abbrev ReplayFS := List (String × Doc)

/-- Python `os.path.join(dir, file)` for the two-argument case. -/
def os_path_join (a b : String) : String :=
  if isAbsolutePath b then b
  else if a == "" then b
  else if strEndsWith a "/" then a ++ b
  else a ++ "/" ++ b

/-- Function `get_file_name` from `replay.py`: suffix is `.yaml` unless the
template name already ends with `.yaml`, in which case `.json`. -/
def get_file_name (replay_dir template_name : String) : String :=
  let suffix := if !(strEndsWith template_name ".yaml") then ".yaml" else ".json"
  os_path_join replay_dir (template_name ++ suffix)

/-- Function `dump` from `replay.py`: require the reserved `cookiecutter` key, then
(over)write the replay file (`make_sure_path_exists` is a filesystem
no-op in this model). -/
def dump (fs : ReplayFS) (replay_dir template_name : String) (context : Doc) :
    Except Err ReplayFS :=
  if !(containsKey context "cookiecutter") then
    .error (.valueError "Context is required to contain a cookiecutter key")
  else
    .ok (ctxSet fs (get_file_name replay_dir template_name) context)

/-- A loaded replay context value: either plain data or the
`CookiecutterVariable` tree that `load` builds for the reserved key. -/
inductive CtxVal where
  | json (v : RawVal)
  | ccvar (v : CookiecutterVariable)

/-- Python `d.get(k)` returning the value of a string key of a raw dict. -/
def dGet : List (RawVal × RawVal) → String → Option RawVal
  | [], _ => none
  | p :: rest, k =>
      if (match p.1 with | .str s => s == k | _ => false) then some p.2
      else dGet rest k


mutual

/-- Structural size of a raw value, used as recursion fuel. -/
def RawVal.size : RawVal → Nat
  | .null => 1
  | .bool _ => 1
  | .int _ => 1
  | .str _ => 1
  | .list xs => 1 + RawVal.sizeList xs
  | .dict xs => 1 + RawVal.sizePairs xs

/-- Summed size of a list of raw values. -/
def RawVal.sizeList : List RawVal → Nat
  | [] => 0
  | x :: xs => 1 + RawVal.size x + RawVal.sizeList xs

/-- Summed size of dict entries. -/
def RawVal.sizePairs : List (RawVal × RawVal) → Nat
  | [] => 0
  | (k, v) :: xs => 1 + RawVal.size k + RawVal.size v + RawVal.sizePairs xs

end

mutual

/-- Fuelled worker for `from_dict` (fuel makes the nested recursion
structural, so that concrete parses reduce in the kernel; the fuel
`RawVal.size d` used by `fromDict` always suffices, since every recursive
call strictly shrinks the value parsed). -/
def fromDictF : Nat → RawVal → Except Err CookiecutterVariable
  | 0, _ => .error .attributeError
  | n + 1, .dict xs => do
      let nm := match dGet xs "name" with | some (.str s) => s | _ => ""
      let p0 := match dGet xs "prompt" with
        | some (.str s) => s
        | _ => nm
      let prompt := if p0 == "" then nm else p0
      let vs ← match dGet xs "variables" with
        | none => Except.ok []
        | some (.list l) => fromDictListF n l
        | some _ => Except.error Err.typeError
      let m := (dGet xs "matches").getD .null
      let md := dGet xs "metadata"
      .ok (.mk nm ((dGet xs "value").getD .null) prompt vs m md)
  | _ + 1, _ => .error .attributeError

/-- Fuelled worker for `from_dict` over the `variables` list. -/
def fromDictListF : Nat → List RawVal → Except Err (List CookiecutterVariable)
  | 0, _ => .error .attributeError
  | _ + 1, [] => .ok []
  | n + 1, d :: rest => do
      let v ← fromDictF n d
      let vs ← fromDictListF n rest
      .ok (v :: vs)

end

/-- Classmethod `CookiecutterVariable.from_dict` from `variables.py`.  `d.get` on a
non-dict raises `AttributeError`; a non-list `variables` entry is not
iterable (`TypeError`).  A non-string `name`/`prompt` is kept by Python
but is not representable in the typed tree and becomes `""`; the falsy
`prompt` defaults to `name` as in `__init__`. -/
def fromDict (d : RawVal) : Except Err CookiecutterVariable :=
  fromDictF (RawVal.size d) d

/-- Function `load` from `replay.py`: read the replay file, require the reserved
`cookiecutter` key, and replace that key's value in place by the
`CookiecutterVariable` tree parsed from it; every other top-level key is
returned untouched. -/
def load (fs : ReplayFS) (replay_dir template_name : String) :
    Except Err (List (String × CtxVal)) := do
  let file := get_file_name replay_dir template_name
  match ctxGet? fs file with
  | none => .error (.ioError file)
  | some doc =>
      if !(containsKey doc "cookiecutter") then
        .error (.valueError "Context is required to contain a cookiecutter key")
      else
        doc.mapM (fun p =>
          if p.1 == "cookiecutter" then do
            let v ← fromDict p.2
            Except.ok (p.1, CtxVal.ccvar v)
          else Except.ok (p.1, CtxVal.json p.2))

mutual

/-- Method `to_cookiecutter_dict` from `variables.py`: flatten the tree into a
dict mapping each descendant's `/`-joined path to its raw value, setting
each child's entry before merging in (`d.update`) the child's own
flattened subtree. -/
def to_cookiecutter_dict : CookiecutterVariable → String → Doc
  | .mk _ _ _ vs _ _, parent => tcd_list vs parent []

/-- The `for v in self.variables` loop of `to_cookiecutter_dict`,
threading the accumulated dict. -/
def tcd_list : List CookiecutterVariable → String → Doc → Doc
  | [], _, d => d
  | v :: rest, parent, d =>
      let nm := parent ++ v.name
      let d1 := ctxSet d nm v.value
      let d2 := (to_cookiecutter_dict v (nm ++ "/")).foldl
        (fun acc p => ctxSet acc p.1 p.2) d1
      tcd_list rest parent d2

end

mutual

/-- Specification flattening of one node: its own `(path, raw value)`
pair followed by the pairs of all its descendants in pre-order, all
branch children included. -/
def nodeFlat : CookiecutterVariable → String → List (String × RawVal)
  | .mk nm val _ vs _ _, parent =>
      (parent ++ nm, val) :: flatPairsList vs (parent ++ nm ++ "/")

/-- Flattening `nodeFlat` over a list of variables with a common prefix. -/
def flatPairsList : List CookiecutterVariable → String → List (String × RawVal)
  | [], _ => []
  | v :: rest, parent => nodeFlat v parent ++ flatPairsList rest parent

end

/-- Specification flattening: the `(path, raw value)` pairs of every
descendant of a node in pre-order, all branch children included. -/
def flatPairs : CookiecutterVariable → String → List (String × RawVal)
  | .mk _ _ _ vs _ _, parent => flatPairsList vs parent

/-- The flat key of a node and of all its descendants (the keys that node
could ever contribute to a resolution rooted at prefix `parent`). -/
def nodeKeys (v : CookiecutterVariable) (parent : String) : List String :=
  (nodeFlat v parent).map Prod.fst

/-- Keys of `nodeKeys` over a list of variables with a common prefix. -/
def nodeKeysList (vs : List CookiecutterVariable) (parent : String) : List String :=
  (flatPairsList vs parent).map Prod.fst

mutual

/-- Number of nodes of a variable tree (induction measure). -/
def varSize : CookiecutterVariable → Nat
  | .mk _ _ _ vs _ _ => 1 + varListSize vs

/-- Number of nodes of a forest of variable trees. -/
def varListSize : List CookiecutterVariable → Nat
  | [] => 0
  | v :: rest => varSize v + varListSize rest

end

/-- Insert a key at the end unless already present: the effect of one
dict assignment on the key sequence. -/
def keyInsert (ks : List String) (k : String) : List String :=
  if ks.any (fun x => x == k) then ks else ks ++ [k]

/-- Whether `k` is the name of a double-marker dict-valued variable of
the list (the only variables written by both passes). -/
def isDoubleMarkerDictName (vars : List CookiecutterVariable) (k : String) : Bool :=
  vars.any (fun v => v.name == k && v.value.isDict && strStartsWith v.name "__")

/-- The distinct keys of a write sequence in first-write order. -/
def firstKeys (ws : List String) : List String :=
  ws.foldl keyInsert []

/-- The identity renderer: every string is already fully rendered. -/
def idRenderer : Renderer := fun s _ => .ok s

/-- An operator echoing every default (and always choosing option 1). -/
def defaultOracle : Oracle :=
  ⟨fun _ d => d, fun _ d => d, fun _ => 0,
   fun _ d => match d with | .dict xs => xs | _ => []⟩

/-- A renderer behaving like Jinja on the template `"{{x}}"` under a
strict environment: substitute the binding of `x`, or fail with an
undefined-variable error when `x` is not bound yet. -/
def xRenderer : Renderer := fun s ctx =>
  if s == "{{x}}" then
    match ctxGet? ctx "x" with
    | some (.str v) => .ok v
    | _ => .error ()
  else .ok s

/-- A renderer behaving like Jinja on the context-dependent (but always
defined) template `"{{n}}"`, e.g. `{{ cookiecutter | length }}`: render
the number of bindings in the context. -/
def lenRenderer : Renderer := fun s ctx =>
  if s == "{{n}}" then .ok (toString ctx.length) else .ok s

/-- Example tree for branch matching: a scalar `color` defaulting to
`"red"` with one dict-valued branch child `theme` guarded by
`matches = "red"`. -/
def colorVar : CookiecutterVariable :=
  .mk "color" (.str "red") "color"
    [.mk "theme" (.dict [(.str "k", .str "v")]) "theme" [] (.str "red") none]
    .null none

/-- Example tree: scalar `a` with an activated branch child named with a
single marker character. -/
def markerBranchVar : CookiecutterVariable :=
  .mk "a" (.str "red") "a"
    [.mk "_x" (.str "y") "_x" [] (.str "red") none]
    .null none

/-- Example tree: a never-activated branch child that is dict-valued and
has branch children of its own. -/
def inertDictBranchVar : CookiecutterVariable :=
  .mk "color" (.str "red") "color"
    [.mk "sub" (.dict [(.str "k", .str "v")]) "sub"
      [.mk "inner" (.str "z") "inner" [] (.str "w") none]
      (.str "blue") none]
    .null none

/-- As `inertDictBranchVar` but with the dict-valued branch activated. -/
def activeDictBranchVar : CookiecutterVariable :=
  .mk "color" (.str "red") "color"
    [.mk "sub" (.dict [(.str "k", .str "v")]) "sub"
      [.mk "inner" (.str "z") "inner" [] (.str "w") none]
      (.str "red") none]
    .null none

/-- Example double-marker dict variable referencing sibling `x`. -/
def derivedDictVar : CookiecutterVariable :=
  .mk "__d" (.dict [(.str "a", .str "{{x}}")]) "__d" [] .null none

/-- Example scalar variable `x`. -/
def xVar : CookiecutterVariable := .mk "x" (.str "hello") "x" [] .null none

/-- Example double-marker dict variable with the context-dependent
template `"{{n}}"`. -/
def lenDictVar : CookiecutterVariable :=
  .mk "__d" (.dict [(.str "a", .str "{{n}}")]) "__d" [] .null none

/-- Example scalar variable `x` with value `"v"`. -/
def vVar : CookiecutterVariable := .mk "x" (.str "v") "x" [] .null none

/-- Example template-selection node whose first option's path climbs out
of the repository with `".."`. -/
def evilTemplateVar : CookiecutterVariable :=
  .mk "template" .null "template" [] .null
    (some (.list [.dict [(.str "name", .str "evil"), (.str "path", .str "../evil")]]))

/-- Example template-selection node with a well-formed relative path. -/
def subAppTemplateVar : CookiecutterVariable :=
  .mk "template" .null "template" [] .null
    (some (.list [.dict [(.str "name", .str "app"), (.str "path", .str "sub/app")]]))

/-- Example public dict variable referencing sibling `x`. -/
def filesVar : CookiecutterVariable :=
  .mk "files" (.dict [(.str "a", .str "{{x}}")]) "files" [] .null none

/-- Example single-marker (private) variable whose raw value carries
template syntax, to exhibit verbatim copying. -/
def privateVar : CookiecutterVariable :=
  .mk "_p" (.str "{{raw}}") "_p" [] .null none

/-- Example replay context with the reserved key and one extra key. -/
def replayCtx : Doc :=
  [("cookiecutter", .dict [(.str "name", .str "p")]), ("extra", .str "1")]

/-! ### Ordered-mapping lemmas -/

theorem containsKey_iff_mem {α : Type} {c : List (String × α)} {k : String} :
    containsKey c k = true ↔ k ∈ c.map Prod.fst := by
  induction c with
  | nil => simp [containsKey]
  | cons p rest ih =>
      simp only [containsKey, List.map_cons, List.mem_cons, Bool.or_eq_true,
        beq_iff_eq, ih]
      tauto

theorem containsKey_eq_false_iff {α : Type} {c : List (String × α)} {k : String} :
    containsKey c k = false ↔ k ∉ c.map Prod.fst := by
  rw [← Bool.not_eq_true, not_iff_not]
  exact containsKey_iff_mem

theorem updatePair_fst {α : Type} (k : String) (v : α) (p : String × α) :
    (if p.1 == k then (k, v) else p).1 = p.1 := by
  by_cases hp : p.1 == k
  · simp [hp, eq_of_beq hp]
  · simp [hp]

theorem map_fst_ctxSet {α : Type} (c : List (String × α)) (k : String) (v : α) :
    (ctxSet c k v).map Prod.fst = keyInsert (c.map Prod.fst) k := by
  have hany : (c.map Prod.fst).any (fun x => x == k) = containsKey c k := by
    induction c with
    | nil => simp [containsKey]
    | cons p rest ih => simp [containsKey, ih]
  unfold ctxSet keyInsert
  rw [hany]
  by_cases h : containsKey c k
  · simp only [h, if_true, List.map_map]
    apply List.map_congr_left
    intro p _
    exact updatePair_fst k v p
  · simp [h]

theorem ctxGet?_map_update_self {α : Type} {c : List (String × α)} {k : String}
    (v : α) (h : containsKey c k = true) :
    ctxGet? (c.map (fun p => if p.1 == k then (k, v) else p)) k = some v := by
  induction c with
  | nil => simp [containsKey] at h
  | cons p rest ih =>
      by_cases hp : p.1 == k
      · simp [ctxGet?, hp]
      · simp only [containsKey, hp, Bool.false_or] at h
        simp only [List.map_cons, hp, if_false, ctxGet?]
        rw [if_neg (by simpa using hp)]
        exact ih h

theorem ctxGet?_append_self {α : Type} {c : List (String × α)} {k : String}
    (v : α) (h : containsKey c k = false) :
    ctxGet? (c ++ [(k, v)]) k = some v := by
  induction c with
  | nil => simp [ctxGet?]
  | cons p rest ih =>
      simp only [containsKey, Bool.or_eq_false_iff] at h
      simp only [List.cons_append, ctxGet?]
      rw [if_neg (by simpa using h.1)]
      exact ih h.2

theorem ctxGet?_ctxSet_self {α : Type} (c : List (String × α)) (k : String) (v : α) :
    ctxGet? (ctxSet c k v) k = some v := by
  unfold ctxSet
  by_cases h : containsKey c k
  · simpa [h] using ctxGet?_map_update_self v h
  · simpa [h] using ctxGet?_append_self v (by simpa using h)

theorem ctxGet?_map_update_ne {α : Type} (c : List (String × α)) {k q : String}
    (v : α) (h : k ≠ q) :
    ctxGet? (c.map (fun p => if p.1 == k then (k, v) else p)) q = ctxGet? c q := by
  induction c with
  | nil => simp
  | cons p rest ih =>
      simp only [List.map_cons]
      by_cases hp : p.1 == k
      · rw [if_pos hp]
        have h1 : ¬((k == q) = true) := by simpa using h
        have h2 : ¬((p.1 == q) = true) := by
          have := eq_of_beq hp
          simpa [this] using h
        simp only [ctxGet?]
        rw [if_neg h1, if_neg h2]
        exact ih
      · rw [if_neg hp]
        simp only [ctxGet?]
        by_cases hq : (p.1 == q) = true
        · rw [if_pos hq, if_pos hq]
        · rw [if_neg hq, if_neg hq]
          exact ih

theorem ctxGet?_append_ne {α : Type} (c : List (String × α)) {k q : String}
    (v : α) (h : k ≠ q) : ctxGet? (c ++ [(k, v)]) q = ctxGet? c q := by
  induction c with
  | nil => simp [ctxGet?, (by simpa using h : ¬(k == q))]
  | cons p rest ih =>
      simp only [List.cons_append, ctxGet?]
      by_cases hq : p.1 == q
      · rw [if_pos (by simpa using hq), if_pos (by simpa using hq)]
      · rw [if_neg (by simpa using hq), if_neg (by simpa using hq)]
        exact ih

theorem ctxGet?_ctxSet_ne {α : Type} (c : List (String × α)) {k q : String} (v : α)
    (h : k ≠ q) : ctxGet? (ctxSet c k v) q = ctxGet? c q := by
  unfold ctxSet
  by_cases hc : containsKey c k
  · simpa [hc] using ctxGet?_map_update_ne c v h
  · simpa [hc] using ctxGet?_append_ne c v h

theorem ctxGet?_eq_none_iff {α : Type} {c : List (String × α)} {k : String} :
    ctxGet? c k = none ↔ containsKey c k = false := by
  induction c with
  | nil => simp [ctxGet?, containsKey]
  | cons p rest ih =>
      by_cases hp : p.1 == k
      · simp [ctxGet?, containsKey, hp]
      · simp [ctxGet?, containsKey, hp, ih]

theorem mem_keyInsert_iff {ks : List String} {k x : String} :
    x ∈ keyInsert ks k ↔ x = k ∨ x ∈ ks := by
  unfold keyInsert
  by_cases h : ks.any (fun y => y == k)
  · simp only [h, if_true]
    constructor
    · exact Or.inr
    · rintro (rfl | hx)
      · simpa [List.any_eq_true] using h
      · exact hx
  · simp [h, or_comm]

theorem mem_foldl_keyInsert_iff {ws ks : List String} {x : String} :
    x ∈ ws.foldl keyInsert ks ↔ x ∈ ks ∨ x ∈ ws := by
  induction ws generalizing ks with
  | nil => simp
  | cons w rest ih =>
      simp only [List.foldl_cons, ih, mem_keyInsert_iff, List.mem_cons]
      tauto

/-! ### String helper lemmas -/

theorem str_ext {s t : String} (h : s.data = t.data) : s = t := by
  cases s
  cases t
  exact congrArg String.mk h

theorem str_append_left_cancel {a b c : String} (h : a ++ b = a ++ c) : b = c := by
  have hd := congrArg String.data h
  rw [String.data_append, String.data_append] at hd
  exact str_ext (List.append_cancel_left hd)

theorem isAbsolutePath_append (n s t : String) :
    isAbsolutePath (n ++ s) = isAbsolutePath (n ++ t) ∨ n.data = [] := by
  unfold isAbsolutePath
  rw [String.data_append, String.data_append]
  cases n.data with
  | nil => exact Or.inr rfl
  | cons c rest => left; rfl

theorem os_path_join_right_inj (d : String) {b1 b2 : String}
    (h : isAbsolutePath b1 = isAbsolutePath b2)
    (he : os_path_join d b1 = os_path_join d b2) : b1 = b2 := by
  unfold os_path_join at he
  by_cases habs : isAbsolutePath b2 = true
  · rw [h, habs] at he
    simpa [habs] using he
  · rw [h] at he
    simp only [habs, if_false] at he
    by_cases hd : d == ""
    · simpa [hd] using he
    · simp only [hd, if_false] at he
      by_cases hsl : strEndsWith d "/"
      · simp only [hsl, if_true] at he
        exact str_append_left_cancel he
      · simp only [hsl, if_false] at he
        exact str_append_left_cancel he

/-! ### Except-monad unfolding lemmas -/

theorem except_ok_bind {e a b : Type} (x : a) (f : a → Except e b) :
    (Except.ok x : Except e a) >>= f = f x := rfl

theorem except_error_bind {e a b : Type} (err : e) (f : a → Except e b) :
    (Except.error err : Except e a) >>= f = .error err := rfl

theorem except_bind_ok_iff {e a b : Type} {x : Except e a} {f : a → Except e b}
    {y : b} (h : x >>= f = .ok y) : ∃ w, x = .ok w ∧ f w = .ok y := by
  cases x with
  | error err => rw [except_error_bind] at h; cases h
  | ok w => exact ⟨w, rfl, by rwa [except_ok_bind] at h⟩

/-- C7: `get_file_name` joins the directory with the template name plus
the primary `.yaml` extension, and falls back to the alternate `.json`
extension exactly when the name already ends with the recognized `.yaml`
suffix. -/
theorem c7_get_file_name (d n : String) :
    get_file_name d n
      = os_path_join d (n ++ (if strEndsWith n ".yaml" then ".json" else ".yaml")) ∧
    (get_file_name d n = os_path_join d (n ++ ".json")
      ↔ strEndsWith n ".yaml" = true) := by
  refine ⟨?_, ?_, ?_⟩
  · unfold get_file_name
    by_cases h : strEndsWith n ".yaml" <;> simp [h]
  · intro he
    by_contra hy
    rw [Bool.not_eq_true] at hy
    unfold get_file_name at he
    simp only [hy, Bool.not_false, if_true] at he
    have habs : isAbsolutePath (n ++ ".yaml") = isAbsolutePath (n ++ ".json") := by
      rcases isAbsolutePath_append n ".yaml" ".json" with h | h
      · exact h
      · unfold isAbsolutePath
        rw [String.data_append, String.data_append, h]
        rfl
    have hinj := os_path_join_right_inj d habs he
    have hd := congrArg String.data hinj
    rw [String.data_append, String.data_append] at hd
    have hsuf := List.append_cancel_left hd
    exact absurd hsuf (by decide)
  · intro hy
    unfold get_file_name
    simp [hy]

/-- C8: each configuration error is fatal with no retry: `dump` raises
`ValueError` when the context lacks the reserved `cookiecutter` key,
`load` raises it when the loaded document lacks that key,
`read_user_choice` raises `ValueError` on an empty option list, and
`read_user_dict` raises `TypeError` when the supplied default is not a
mapping. -/
theorem c8_config_errors (o : Oracle) (fs fs2 : ReplayFS)
    (dir name1 dir2 name2 vn vn2 : String) (ctx doc : Doc) (dv : RawVal)
    (h1 : containsKey ctx "cookiecutter" = false)
    (h2 : ctxGet? fs2 (get_file_name dir2 name2) = some doc)
    (h3 : containsKey doc "cookiecutter" = false)
    (h4 : dv.isDict = false) :
    dump fs dir name1 ctx
      = .error (.valueError "Context is required to contain a cookiecutter key") ∧
    load fs2 dir2 name2
      = .error (.valueError "Context is required to contain a cookiecutter key") ∧
    read_user_choice o vn [] = .error (.valueError "") ∧
    read_user_dict o vn2 dv = .error .typeError := by
  refine ⟨?_, ?_, ?_, ?_⟩
  · simp [dump, h1]
  · simp [load, h2, h3]
  · simp [read_user_choice]
  · cases dv <;> simp_all [read_user_dict, RawVal.isDict]

/-- Concrete instantiation of `c8_config_errors`. -/
theorem c8_config_errors_witness :
    dump [] "d" "t" [("other", .str "1")]
      = .error (.valueError "Context is required to contain a cookiecutter key") ∧
    load [("d/t.yaml", [("other", .str "1")])] "d" "t"
      = .error (.valueError "Context is required to contain a cookiecutter key") ∧
    read_user_choice defaultOracle "v" [] = .error (.valueError "") ∧
    read_user_dict defaultOracle "v" (.str "s") = .error .typeError :=
  c8_config_errors defaultOracle [] [("d/t.yaml", [("other", .str "1")])]
    "d" "t" "d" "t" "v" "v" [("other", .str "1")] [("other", .str "1")]
    (.str "s") (by rfl) (by rfl) (by rfl) (by rfl)

/-- C3 counterexample: the path `"../evil"` is NOT rejected — it passes
the `is_absolute` check and `choose_nested_template` returns the resolved
path `/evil`, which lies outside the repository directory `/repo`. -/
theorem c3_nested_template_counterexample :
    choose_nested_template defaultOracle evilTemplateVar "/repo" true
      = .ok "/evil" := by rfl

/-- C3 amended: `choose_nested_template` auto-selects the first option
when non-interactive; it rejects an empty (falsy) path and an absolute
path as an illegal configuration (`ValueError`), while a missing `path`
key surfaces as the lookup's own error; every other path — relative in
the `is_absolute` sense, including `".."`-traversals — is accepted and
joined onto the resolved base directory. -/
theorem c3_nested_template_amended (o : Oracle) (v : CookiecutterVariable)
    (repo : String) (opt : RawVal) (rest : List RawVal)
    (hmd : v.metadata = some (.list (opt :: rest)))
    (hval : validate_options (opt :: rest) = .ok ()) :
    (∀ p, rawIndex opt "path" = .ok (.str p) → p ≠ "" → isAbsolutePath p = false →
        choose_nested_template o v repo true = .ok (pathResolve repo p)) ∧
    (∀ p, rawIndex opt "path" = .ok (.str p) → isAbsolutePath p = true →
        choose_nested_template o v repo true
          = .error (.valueError "Illegal template path")) ∧
    (rawIndex opt "path" = .ok (.str "") →
        choose_nested_template o v repo true
          = .error (.valueError "Illegal template path")) ∧
    (∀ e, rawIndex opt "path" = .error e →
        choose_nested_template o v repo true = .error e) := by
  have h1 : prompt_choice_for_template o v.get_metadata true = .ok opt := by
    simp [prompt_choice_for_template, CookiecutterVariable.get_metadata, hmd, hval,
      except_ok_bind]
  refine ⟨?_, ?_, ?_, ?_⟩
  · intro p hp hne habs
    have ht : (RawVal.str p).truthy = true := by
      simp [RawVal.truthy, hne]
    simp [choose_nested_template, h1, hp, ht, habs, except_ok_bind]
  · intro p hp habs
    by_cases hne : p = ""
    · subst hne
      simp [isAbsolutePath] at habs
    · have ht : (RawVal.str p).truthy = true := by
        simp [RawVal.truthy, hne]
      simp [choose_nested_template, h1, hp, ht, habs, except_ok_bind]
  · intro hp
    simp [choose_nested_template, h1, hp, RawVal.truthy, except_ok_bind]
  · intro e hp
    simp [choose_nested_template, h1, hp, except_ok_bind, except_error_bind]

/-- Concrete instantiation of `c3_nested_template_amended`: the relative
path `"sub/app"` yields `<repo_dir>/sub/app`. -/
theorem c3_nested_template_amended_witness :
    choose_nested_template defaultOracle subAppTemplateVar "/repo" true
      = .ok "/repo/sub/app" :=
  (c3_nested_template_amended defaultOracle subAppTemplateVar "/repo"
    (.dict [(.str "name", .str "app"), (.str "path", .str "sub/app")]) []
    (by rfl) (by rfl)).1 "sub/app" (by rfl) (by decide) (by rfl)

/-- Shape of a successful `load` transformation: keys are preserved in
order and non-reserved entries are returned verbatim. -/
theorem load_mapM_shape {ctx : Doc} {out : List (String × CtxVal)}
    (h : ctx.mapM (fun p =>
        if p.1 == "cookiecutter" then do
          let v ← fromDict p.2
          Except.ok (p.1, CtxVal.ccvar v)
        else Except.ok (p.1, CtxVal.json p.2)) = .ok out) :
    out.map Prod.fst = ctx.map Prod.fst ∧
    ∀ p ∈ ctx, p.1 ≠ "cookiecutter" → (p.1, CtxVal.json p.2) ∈ out := by
  induction ctx generalizing out with
  | nil =>
      simp only [List.mapM_nil, pure, Except.pure, Except.ok.injEq] at h
      subst h
      simp
  | cons p rest ih =>
      rw [List.mapM_cons] at h
      obtain ⟨q, hq, h2⟩ := except_bind_ok_iff h
      obtain ⟨qs, hqs, h3⟩ := except_bind_ok_iff h2
      simp only [pure, Except.pure, Except.ok.injEq] at h3
      subst h3
      obtain ⟨hk, hrest⟩ := ih hqs
      by_cases hc : (p.1 == "cookiecutter") = true
      · rw [if_pos hc] at hq
        obtain ⟨tv, _, hq2⟩ := except_bind_ok_iff hq
        simp only [Except.ok.injEq] at hq2
        subst hq2
        refine ⟨by simp [hk], ?_⟩
        intro w hw hwne
        rcases List.mem_cons.mp hw with hw2 | hw2
        · subst hw2
          exact absurd (eq_of_beq hc) hwne
        · exact List.mem_cons_of_mem _ (hrest w hw2 hwne)
      · rw [if_neg hc] at hq
        simp only [Except.ok.injEq] at hq
        subst hq
        refine ⟨by simp [hk], ?_⟩
        intro w hw hwne
        rcases List.mem_cons.mp hw with hw2 | hw2
        · subst hw2
          exact List.mem_cons_self _ _
        · exact List.mem_cons_of_mem _ (hrest w hw2 hwne)

/-- C4 counterexample: `load` after `dump` does NOT yield the context
restricted to the reserved key's substructure — the extra top-level key
`"extra"` survives, and the reserved key's value is replaced by the
parsed `CookiecutterVariable` tree instead of the original mapping. -/
theorem c4_replay_roundtrip_counterexample :
    dump [] "d" "t" replayCtx = .ok [("d/t.yaml", replayCtx)] ∧
    load [("d/t.yaml", replayCtx)] "d" "t"
      = .ok [("cookiecutter", .ccvar (.mk "p" .null "p" [] .null none)),
             ("extra", .json (.str "1"))] :=
  ⟨rfl, rfl⟩

/-- C4 amended: for a context containing the reserved key, `load` after
`dump` returns the whole context with every top-level key preserved in
order, every non-reserved entry verbatim, and the reserved entry's value
replaced by `from_dict` of the dumped value. -/
theorem c4_replay_roundtrip_amended (fs : ReplayFS) (dir name : String)
    (ctx : Doc) (h : containsKey ctx "cookiecutter" = true) :
    dump fs dir name ctx = .ok (ctxSet fs (get_file_name dir name) ctx) ∧
    load (ctxSet fs (get_file_name dir name) ctx) dir name
      = ctx.mapM (fun p =>
          if p.1 == "cookiecutter" then do
            let v ← fromDict p.2
            Except.ok (p.1, CtxVal.ccvar v)
          else Except.ok (p.1, CtxVal.json p.2)) ∧
    ∀ out, load (ctxSet fs (get_file_name dir name) ctx) dir name = .ok out →
      out.map Prod.fst = ctx.map Prod.fst ∧
      ∀ p ∈ ctx, p.1 ≠ "cookiecutter" → (p.1, CtxVal.json p.2) ∈ out := by
  have hload : load (ctxSet fs (get_file_name dir name) ctx) dir name
      = ctx.mapM (fun p =>
          if p.1 == "cookiecutter" then do
            let v ← fromDict p.2
            Except.ok (p.1, CtxVal.ccvar v)
          else Except.ok (p.1, CtxVal.json p.2)) := by
    simp [load, ctxGet?_ctxSet_self, h]
  refine ⟨by simp [dump, h], hload, ?_⟩
  intro out hout
  rw [hload] at hout
  exact load_mapM_shape hout

/-- Concrete instantiation of `c4_replay_roundtrip_amended`. -/
theorem c4_replay_roundtrip_amended_witness :
    dump [] "d" "t" replayCtx = .ok (ctxSet [] (get_file_name "d" "t") replayCtx) ∧
    load (ctxSet [] (get_file_name "d" "t") replayCtx) "d" "t"
      = replayCtx.mapM (fun p =>
          if p.1 == "cookiecutter" then do
            let v ← fromDict p.2
            Except.ok (p.1, CtxVal.ccvar v)
          else Except.ok (p.1, CtxVal.json p.2)) := by
  have h := c4_replay_roundtrip_amended [] "d" "t" replayCtx (by rfl)
  exact ⟨h.1, h.2.1⟩

/-! ### Flattening (`to_cookiecutter_dict`) -/

theorem varSize_pos (v : CookiecutterVariable) : 1 ≤ varSize v := by
  cases v
  simp [varSize]

theorem containsKey_append {α : Type} (a b : List (String × α)) (k : String) :
    containsKey (a ++ b) k = (containsKey a k || containsKey b k) := by
  induction a with
  | nil => simp [containsKey]
  | cons p rest ih => simp [containsKey, ih, Bool.or_assoc]

theorem ctxSet_fresh {α : Type} {d : List (String × α)} {k : String} (v : α)
    (h : containsKey d k = false) : ctxSet d k v = d ++ [(k, v)] := by
  simp [ctxSet, h]

theorem foldl_ctxSet_append {α : Type} (sub : List (String × α)) :
    ∀ d : List (String × α), (sub.map Prod.fst).Nodup →
    (∀ k ∈ sub.map Prod.fst, containsKey d k = false) →
    sub.foldl (fun acc p => ctxSet acc p.1 p.2) d = d ++ sub := by
  induction sub with
  | nil => intro d _ _; simp
  | cons p rest ih =>
      intro d hnd hfresh
      simp only [List.foldl_cons]
      rw [ctxSet_fresh p.2 (hfresh p.1 (by simp))]
      rw [ih (d ++ [(p.1, p.2)]) (by simpa using hnd.of_cons) ?_]
      · simp
      · intro k hk
        rw [containsKey_append, Bool.or_eq_false_iff]
        refine ⟨hfresh k (by simp [hk]), ?_⟩
        have hne : k ≠ p.1 := by
          simp only [List.map_cons, List.nodup_cons] at hnd
          intro he
          exact hnd.1 (he ▸ hk)
        simp [containsKey, hne.symm]

theorem tcd_list_spec (n : Nat) :
    ∀ (vs : List CookiecutterVariable) (parent : String) (d : Doc),
    varListSize vs ≤ n →
    ((flatPairsList vs parent).map Prod.fst).Nodup →
    (∀ k ∈ (flatPairsList vs parent).map Prod.fst, containsKey d k = false) →
    tcd_list vs parent d = d ++ flatPairsList vs parent := by
  induction n with
  | zero =>
      intro vs parent d hle _ _
      cases vs with
      | nil => simp [tcd_list, flatPairsList]
      | cons v rest =>
          exfalso
          have := varSize_pos v
          simp only [varListSize] at hle
          omega
  | succ n ih =>
      intro vs parent d hle hnd hfresh
      cases vs with
      | nil => simp [tcd_list, flatPairsList]
      | cons v rest =>
          obtain ⟨nm, val, pr, subs, m, md⟩ := v
          simp only [flatPairsList, nodeFlat, List.cons_append, List.map_cons,
            List.map_append, List.nodup_cons, List.nodup_append] at hnd
          obtain ⟨hhead, hsubnd, hrestnd, hdisj⟩ := hnd
          simp only [varListSize, varSize] at hle
          simp only [tcd_list, CookiecutterVariable.name, CookiecutterVariable.value,
            CookiecutterVariable.subvars, to_cookiecutter_dict]
          rw [ctxSet_fresh val (hfresh (parent ++ nm)
            (by simp [flatPairsList, nodeFlat]))]
          rw [ih subs (parent ++ nm ++ "/") [] (by omega) hsubnd
            (by intro k _; simp [containsKey])]
          simp only [List.nil_append]
          rw [foldl_ctxSet_append _ _ hsubnd ?_]
          · rw [ih rest parent _ (by omega) hrestnd ?_]
            · simp [flatPairsList, nodeFlat]
            · intro k hk
              rw [containsKey_append, containsKey_append,
                Bool.or_eq_false_iff, Bool.or_eq_false_iff]
              refine ⟨⟨hfresh k (by simp [flatPairsList, nodeFlat, hk]), ?_⟩, ?_⟩
              · have hne : k ≠ parent ++ nm := by
                  intro he
                  exact hhead (by simp [he ▸ hk])
                simp [containsKey, hne.symm]
              · rw [containsKey_eq_false_iff]
                intro hmem
                exact hdisj hmem hk
          · intro k hk
            rw [containsKey_append, Bool.or_eq_false_iff]
            refine ⟨hfresh k (by simp [flatPairsList, nodeFlat, hk]), ?_⟩
            have hne : k ≠ parent ++ nm := by
              intro he
              exact hhead (by simp [he ▸ hk])
            simp [containsKey, hne.symm]

theorem ctxGet?_of_mem_nodup {α : Type} {d : List (String × α)} {p : String × α}
    (hmem : p ∈ d) (hnd : (d.map Prod.fst).Nodup) : ctxGet? d p.1 = some p.2 := by
  induction d with
  | nil => cases hmem
  | cons q rest ih =>
      simp only [List.map_cons, List.nodup_cons] at hnd
      rcases List.mem_cons.mp hmem with h | h
      · subst h
        simp [ctxGet?]
      · have hne : ¬(q.1 == p.1) = true := by
          simp only [beq_iff_eq]
          intro he
          exact hnd.1 (he ▸ List.mem_map_of_mem Prod.fst h)
        simp only [ctxGet?]
        rw [if_neg hne]
        exact ih h hnd.2

/-- C10: for a tree whose flat paths are pairwise distinct,
`to_cookiecutter_dict` returns exactly the pre-order list of
`(path, raw value)` pairs of every descendant variable — one entry per
descendant, keyed by the `/`-joined path and mapped to the raw value,
with every branch child included unconditionally, whatever its `matches`
guard — and looking up any descendant's path yields its raw value. -/
theorem c10_to_cookiecutter_dict (t : CookiecutterVariable) (parent : String)
    (hnd : ((flatPairs t parent).map Prod.fst).Nodup) :
    to_cookiecutter_dict t parent = flatPairs t parent ∧
    ∀ p ∈ flatPairs t parent, ctxGet? (to_cookiecutter_dict t parent) p.1 = some p.2 := by
  obtain ⟨nm, val, pr, subs, m, md⟩ := t
  have heq : to_cookiecutter_dict (.mk nm val pr subs m md) parent
      = flatPairs (.mk nm val pr subs m md) parent := by
    simp only [to_cookiecutter_dict, flatPairs]
    rw [tcd_list_spec (varListSize subs) subs parent [] le_rfl
      (by simpa [flatPairs] using hnd) (by intro k _; simp [containsKey])]
    simp
  refine ⟨heq, ?_⟩
  intro p hp
  rw [heq]
  exact ctxGet?_of_mem_nodup hp hnd

/-- Concrete instantiation of `c10_to_cookiecutter_dict`: branch children
are flattened unconditionally, here a dict-valued branch (guarded by a
`matches` value that resolution would never activate) and its own child
both appear, keyed by their `/`-joined paths. -/
theorem c10_to_cookiecutter_dict_witness :
    to_cookiecutter_dict (.mk "root" .null "" [inertDictBranchVar] .null none) ""
      = [("color", .str "red"),
         ("color/sub", .dict [(.str "k", .str "v")]),
         ("color/sub/inner", .str "z")] := by
  have h := (c10_to_cookiecutter_dict
    (.mk "root" .null "" [inertDictBranchVar] .null none) "" (by decide)).1
  rw [h]
  rfl

/-! ### Single-variable resolution characterization -/

theorem resolve_self_dict {r : Renderer} {o : Oracle} {ni : Bool}
    {v : CookiecutterVariable} (ctx : Ctx) (parent : String)
    (hv : v.value.isDict = true) :
    resolve_self r o ni v ctx parent = .ok (ctx, []) := by
  obtain ⟨nm, value, pr, vs, m, md⟩ := v
  cases value <;> simp_all [resolve_self, CookiecutterVariable.value, RawVal.isDict]

theorem resolve_self_nondict {r : Renderer} {o : Oracle} {ni : Bool}
    {v : CookiecutterVariable} {ctx ctx1 : Ctx} {l1 : Log} {parent : String}
    (hv : v.value.isDict = false)
    (h : resolve_self r o ni v ctx parent = .ok (ctx1, l1)) :
    ∃ val pl, ctx1 = ctxSet ctx (parent ++ v.name) val ∧
      l1 = pl ++ [.write (parent ++ v.name) val] ∧ writeKeys pl = [] := by
  obtain ⟨nm, value, pr, vs, m, md⟩ := v
  simp only [CookiecutterVariable.value] at hv
  simp only [resolve_self, CookiecutterVariable.value, CookiecutterVariable.name] at h
  simp only [CookiecutterVariable.name]
  cases value with
  | dict xs => simp [RawVal.isDict] at hv
  | list opts =>
      obtain ⟨val, hval, h2⟩ := except_bind_ok_iff h
      obtain ⟨nm2, hnm2, h3⟩ := except_bind_ok_iff h2
      simp only [Except.ok.injEq, Prod.mk.injEq] at h3
      refine ⟨nm2, if ni then [] else [.promptChoice nm], h3.1.symm, h3.2.symm, ?_⟩
      cases ni <;> simp [writeKeys]
  | bool b =>
      cases ni with
      | true =>
          simp only [if_pos, render_variable, Except.mapError, except_ok_bind,
            Except.ok.injEq, Prod.mk.injEq] at h
          exact ⟨.bool b, [], h.1.symm, by simp [h.2], rfl⟩
      | false =>
          simp only [Bool.false_eq_true, if_false, Except.ok.injEq,
            Prod.mk.injEq] at h
          exact ⟨.bool (read_user_yes_no o nm b), [.promptYesNo nm], h.1.symm,
            by simp [h.2], by simp [writeKeys]⟩
  | null =>
      obtain ⟨val, hval, h2⟩ := except_bind_ok_iff h
      cases ni with
      | true =>
          simp only [if_pos, Except.ok.injEq, Prod.mk.injEq] at h2
          exact ⟨val, [], h2.1.symm, by simp [h2.2], rfl⟩
      | false =>
          simp only [Bool.false_eq_true, if_false, Except.ok.injEq,
            Prod.mk.injEq] at h2
          exact ⟨read_user_variable o nm val, [.promptText nm], h2.1.symm,
            by simp [h2.2], by simp [writeKeys]⟩
  | int n =>
      obtain ⟨val, hval, h2⟩ := except_bind_ok_iff h
      cases ni with
      | true =>
          simp only [if_pos, Except.ok.injEq, Prod.mk.injEq] at h2
          exact ⟨val, [], h2.1.symm, by simp [h2.2], rfl⟩
      | false =>
          simp only [Bool.false_eq_true, if_false, Except.ok.injEq,
            Prod.mk.injEq] at h2
          exact ⟨read_user_variable o nm val, [.promptText nm], h2.1.symm,
            by simp [h2.2], by simp [writeKeys]⟩
  | str s =>
      obtain ⟨val, hval, h2⟩ := except_bind_ok_iff h
      cases ni with
      | true =>
          simp only [if_pos, Except.ok.injEq, Prod.mk.injEq] at h2
          exact ⟨val, [], h2.1.symm, by simp [h2.2], rfl⟩
      | false =>
          simp only [Bool.false_eq_true, if_false, Except.ok.injEq,
            Prod.mk.injEq] at h2
          exact ⟨read_user_variable o nm val, [.promptText nm], h2.1.symm,
            by simp [h2.2], by simp [writeKeys]⟩

/-- C9 counterexample: a tree CONTAINING a dict-valued node with branch
children can still resolve — here the node sits as a branch whose
`matches` (`"blue"`) differs from the parent's value (`"red"`), so it is
never reached and resolution returns a context. -/
theorem c9_dict_branch_counterexample :
    prompt_for_config idRenderer defaultOracle true [inertDictBranchVar]
      = .ok ([("color", RawVal.str "red")], [.write "color" (.str "red")]) := by
  rfl

/-- C9 amended: whenever `get_cookiecutter_values` is actually invoked on
a dict-valued variable with a non-empty branch list and its flat key is
not already bound, the `if`/`elif` chain stores nothing, so the branch
loop's lookup of the flat key fails with a `KeyError` and no context is
returned from that call. -/
theorem c9_dict_branch_amended (r : Renderer) (o : Oracle) (ni : Bool)
    (v : CookiecutterVariable) (ctx : Ctx) (parent : String)
    (d : List (RawVal × RawVal)) (b : CookiecutterVariable)
    (bs : List CookiecutterVariable)
    (hval : v.value = .dict d) (hsub : v.subvars = b :: bs)
    (hfresh : containsKey ctx (parent ++ v.name) = false) :
    get_cookiecutter_values r o ni v ctx parent
      = .error (.keyError (parent ++ v.name)) := by
  obtain ⟨nm, value, pr, vs, m, md⟩ := v
  simp only [CookiecutterVariable.value] at hval
  simp only [CookiecutterVariable.subvars] at hsub
  simp only [CookiecutterVariable.name] at hfresh ⊢
  subst hval
  subst hsub
  have hself : resolve_self r o ni (.mk nm (.dict d) pr (b :: bs) m md) ctx parent
      = .ok (ctx, []) := resolve_self_dict ctx parent (by simp [CookiecutterVariable.value, RawVal.isDict])
  have hnone : ctxGet? ctx (parent ++ nm) = none := ctxGet?_eq_none_iff.mpr hfresh
  simp [get_cookiecutter_values, hself, except_ok_bind, except_error_bind,
    gccv_branches, hnone]

/-- Concrete instantiation of `c9_dict_branch_amended`: the activated
dict-valued branch `sub` of `activeDictBranchVar` has a child, so
resolving the whole tree fails with `KeyError` on `color/sub`. -/
theorem c9_dict_branch_amended_witness :
    get_cookiecutter_values idRenderer defaultOracle true
      (.mk "sub" (.dict [(.str "k", .str "v")]) "sub"
        [.mk "inner" (.str "z") "inner" [] (.str "w") none]
        (.str "red") none)
      [("color", RawVal.str "red")] ("color" ++ "/")
      = .error (.keyError ("color" ++ "/" ++ "sub")) :=
  c9_dict_branch_amended idRenderer defaultOracle true
    (.mk "sub" (.dict [(.str "k", .str "v")]) "sub"
      [.mk "inner" (.str "z") "inner" [] (.str "w") none]
      (.str "red") none)
    [("color", RawVal.str "red")] ("color" ++ "/")
    [(.str "k", .str "v")]
    (.mk "inner" (.str "z") "inner" [] (.str "w") none) []
    (by rfl) (by rfl) (by rfl)

/-- C1 counterexample: a branch child whose `matches` equals the stored
value is NOT resolved by the full two-pass algorithm — the dict-valued
branch `theme` of `colorVar` matches the stored `"red"`, yet it
contributes zero keys to the resolved context (its key `color/theme` is
absent), where the two-pass algorithm would have rendered and stored it
in its dict pass. -/
theorem c1_branch_matching_counterexample :
    ((CookiecutterVariable.mk "theme" (.dict [(.str "k", .str "v")]) "theme" []
        (.str "red") none).matchesVal == RawVal.str "red") = true ∧
    get_cookiecutter_values idRenderer defaultOracle true colorVar [] ""
      = .ok ([("color", RawVal.str "red")], [.write "color" (.str "red")]) ∧
    ctxGet? [("color", RawVal.str "red")] "color/theme" = none :=
  ⟨rfl, rfl, rfl⟩

/-- C1 amended: for a non-dict variable, `get_cookiecutter_values` first
stores the resolved value under the flat key `parent + name`, then walks
the branch children against the stored value: children whose `matches`
differs contribute zero keys and zero events, and a child whose `matches`
equals the stored value is resolved by the same recursive single-variable
step (not the two-pass algorithm) with `<flat key> + "/"` as the new
prefix. -/
theorem c1_branch_matching_amended (r : Renderer) (o : Oracle) (ni : Bool)
    (v b : CookiecutterVariable) (bs rest : List CookiecutterVariable)
    (ctx cb ctx1 : Ctx) (l1 : Log) (parent key : String) (stored : RawVal)
    (hv : v.value.isDict = false)
    (hself : resolve_self r o ni v ctx parent = .ok (ctx1, l1))
    (hstored : ctxGet? cb key = some stored) :
    (∃ val, ctx1 = ctxSet ctx (parent ++ v.name) val ∧
        ctxGet? ctx1 (parent ++ v.name) = some val) ∧
    get_cookiecutter_values r o ni v ctx parent
      = (do
          let (c1, m1) ← resolve_self r o ni v ctx parent
          let (c2, m2) ← gccv_branches r o ni v.subvars (parent ++ v.name) c1
          Except.ok (c2, m1 ++ m2)) ∧
    ((∀ x ∈ bs, (x.matchesVal == stored) = false) →
        gccv_branches r o ni bs key cb = .ok (cb, [])) ∧
    ((b.matchesVal == stored) = true →
        gccv_branches r o ni (b :: rest) key cb
          = (do
              let (c1, m1) ← get_cookiecutter_values r o ni b cb (key ++ "/")
              let (c2, m2) ← gccv_branches r o ni rest key c1
              Except.ok (c2, m1 ++ m2))) := by
  refine ⟨?_, ?_, ?_, ?_⟩
  · obtain ⟨val, pl, hctx, -, -⟩ := resolve_self_nondict hv hself
    exact ⟨val, hctx, hctx ▸ ctxGet?_ctxSet_self ctx (parent ++ v.name) val⟩
  · obtain ⟨nm, value, pr, vs, m, md⟩ := v
    simp only [get_cookiecutter_values, CookiecutterVariable.name,
      CookiecutterVariable.subvars]
  · intro hmiss
    induction bs with
    | nil => simp [gccv_branches]
    | cons x xs ih =>
        have hx : (x.matchesVal == stored) = false := hmiss x (by simp)
        simp only [gccv_branches, hstored, hx, Bool.false_eq_true, if_false]
        exact ih (fun y hy => hmiss y (by simp [hy]))
  · intro hmatch
    simp only [gccv_branches, hstored, hmatch, if_true]

/-- Concrete instantiation of `c1_branch_matching_amended`. -/
theorem c1_branch_matching_amended_witness :
    (∃ val, [("color", RawVal.str "red")] = ctxSet [] ("" ++ colorVar.name) val ∧
        ctxGet? [("color", RawVal.str "red")] ("" ++ colorVar.name) = some val) ∧
    gccv_branches idRenderer defaultOracle true
      [.mk "t2" (.str "s") "t2" [] (.str "blue") none] "color"
      [("color", RawVal.str "red")]
      = .ok ([("color", RawVal.str "red")], []) ∧
    gccv_branches idRenderer defaultOracle true
      (.mk "theme" (.str "dark") "theme" [] (.str "red") none :: []) "color"
      [("color", RawVal.str "red")]
      = (do
          let (c1, m1) ← get_cookiecutter_values idRenderer defaultOracle true
            (.mk "theme" (.str "dark") "theme" [] (.str "red") none)
            [("color", RawVal.str "red")] ("color" ++ "/")
          let (c2, m2) ← gccv_branches idRenderer defaultOracle true [] "color" c1
          Except.ok (c2, m1 ++ m2)) := by
  have h := c1_branch_matching_amended idRenderer defaultOracle true colorVar
    (.mk "theme" (.str "dark") "theme" [] (.str "red") none)
    [.mk "t2" (.str "s") "t2" [] (.str "blue") none] []
    [] [("color", RawVal.str "red")] [("color", RawVal.str "red")]
    [.write "color" (.str "red")] "" "color" (.str "red")
    (by rfl) (by rfl) (by rfl)
  refine ⟨h.1, h.2.2.1 ?_, h.2.2.2 (by rfl)⟩
  intro x hx
  rcases List.mem_singleton.mp hx with rfl
  rfl

/-- C6 counterexample: an activated branch child named with a single
marker character (`_x`) IS prompted (and rendered) — the branch recursion
of `get_cookiecutter_values` applies no marker handling, so interactive
resolution of `markerBranchVar` emits a prompt event for `_x`. -/
theorem c6_marker_counterexample :
    prompt_for_config idRenderer defaultOracle false [markerBranchVar]
      = .ok ([("a", RawVal.str "red"), ("a/_x", RawVal.str "y")],
             [.promptText "a", .write "a" (.str "red"),
              .promptText "_x", .write "a/_x" (.str "y")]) ∧
    strStartsWith "_x" "_" = true ∧ strStartsWith "_x" "__" = false :=
  ⟨rfl, rfl, rfl⟩

/-- C6 amended: for TOP-LEVEL variables of `prompt_for_config` the marker
rules hold: a single-marker name is copied verbatim in pass 1 (its step is
independent of the renderer, emits no prompt event) and skipped by
pass 2; a double-marker name is rendered against the context so far and
stored, with no prompt event, in both passes — even in interactive mode.
Branch descendants are not subject to this handling. -/
theorem c6_marker_amended (r r2 : Renderer) (o : Oracle) (ni : Bool)
    (v w : CookiecutterVariable) (ctx cw : Ctx)
    (hs1 : strStartsWith v.name "_" = true)
    (hs2 : strStartsWith v.name "__" = false)
    (hw : strStartsWith w.name "__" = true) :
    pass1_step r o ni v ctx
      = .ok (ctxSet ctx v.name v.value, [.write v.name v.value]) ∧
    pass1_step r o ni v ctx = pass1_step r2 o ni v ctx ∧
    pass2_step r o ni v ctx = .ok (ctx, []) ∧
    (∀ val, render_variable r cw w.value = .ok val →
        pass1_step r o ni w cw
          = .ok (ctxSet cw w.name val, [.write w.name val])) ∧
    (∀ d val, w.value = .dict d → render_variable r cw (.dict d) = .ok val →
        pass2_step r o ni w cw
          = .ok (ctxSet cw w.name val, [.write w.name val])) := by
  refine ⟨?_, ?_, ?_, ?_, ?_⟩
  · simp [pass1_step, hs1, hs2]
  · simp [pass1_step, hs1, hs2]
  · simp [pass2_step, hs1, hs2]
  · intro val hval
    simp [pass1_step, hw, hval]
  · intro d val hd hval
    simp [pass2_step, hw, hd, hval]

/-- Concrete instantiation of `c6_marker_amended` at the private variable
`_p` (raw template value copied verbatim) and the derived dict variable
`__d`, in interactive mode. -/
theorem c6_marker_amended_witness :
    pass1_step idRenderer defaultOracle false privateVar []
      = .ok (ctxSet [] "_p" (.str "{{raw}}"), [.write "_p" (.str "{{raw}}")]) ∧
    pass2_step idRenderer defaultOracle false privateVar [] = .ok ([], []) ∧
    pass1_step idRenderer defaultOracle false derivedDictVar []
      = .ok (ctxSet [] "__d" (.dict [(.str "a", .str "{{x}}")]),
             [.write "__d" (.dict [(.str "a", .str "{{x}}")])]) ∧
    pass2_step idRenderer defaultOracle false derivedDictVar []
      = .ok (ctxSet [] "__d" (.dict [(.str "a", .str "{{x}}")]),
             [.write "__d" (.dict [(.str "a", .str "{{x}}")])]) := by
  have h := c6_marker_amended idRenderer idRenderer defaultOracle false
    privateVar derivedDictVar [] [] (by rfl) (by rfl) (by rfl)
  exact ⟨h.1, h.2.2.1, h.2.2.2.1 _ (by rfl), h.2.2.2.2 _ _ (by rfl) (by rfl)⟩

/-! ### Write-log and key-shape lemmas -/

theorem str_empty_append (s : String) : "" ++ s = s :=
  str_ext (by rw [String.data_append]; rfl)

theorem strStartsWith_double_single {s : String}
    (h : strStartsWith s "__" = true) : strStartsWith s "_" = true := by
  unfold strStartsWith at h ⊢
  rw [List.isPrefixOf_iff_prefix] at h ⊢
  exact List.IsPrefix.trans ⟨['_'], rfl⟩ h

theorem writeKeys_append (a b : Log) :
    writeKeys (a ++ b) = writeKeys a ++ writeKeys b :=
  List.filterMap_append a b _

theorem nodeKeys_def (v : CookiecutterVariable) (parent : String) :
    nodeKeys v parent
      = (parent ++ v.name) :: nodeKeysList v.subvars (parent ++ v.name ++ "/") := by
  obtain ⟨nm, val, pr, vs, m, md⟩ := v
  simp [nodeKeys, nodeFlat, nodeKeysList, CookiecutterVariable.name,
    CookiecutterVariable.subvars]

theorem nodeKeysList_cons (v : CookiecutterVariable)
    (rest : List CookiecutterVariable) (parent : String) :
    nodeKeysList (v :: rest) parent
      = nodeKeys v parent ++ nodeKeysList rest parent := by
  simp [nodeKeysList, nodeKeys, flatPairsList]

theorem nodeKeysList_nil (parent : String) : nodeKeysList [] parent = [] := rfl

theorem resolve_self_keys {r : Renderer} {o : Oracle} {ni : Bool}
    {v : CookiecutterVariable} {ctx ctx1 : Ctx} {l1 : Log} {parent : String}
    (h : resolve_self r o ni v ctx parent = .ok (ctx1, l1)) :
    ctx1.map Prod.fst = (writeKeys l1).foldl keyInsert (ctx.map Prod.fst) := by
  by_cases hd : v.value.isDict = true
  · rw [resolve_self_dict ctx parent hd] at h
    simp only [Except.ok.injEq, Prod.mk.injEq] at h
    obtain ⟨h1, h2⟩ := h
    subst h1
    subst h2
    simp [writeKeys]
  · obtain ⟨val, pl, hctx, hl, hpl⟩ :=
      resolve_self_nondict (by simpa using hd) h
    subst hctx
    subst hl
    rw [writeKeys_append, hpl, List.nil_append]
    simp only [writeKeys, List.filterMap_cons, List.filterMap_nil, List.foldl]
    exact map_fst_ctxSet ctx (parent ++ v.name) val

theorem resolve_self_writes {r : Renderer} {o : Oracle} {ni : Bool}
    {v : CookiecutterVariable} {ctx ctx1 : Ctx} {l1 : Log} {parent : String}
    (h : resolve_self r o ni v ctx parent = .ok (ctx1, l1)) :
    List.Sublist (writeKeys l1) [parent ++ v.name] := by
  by_cases hd : v.value.isDict = true
  · rw [resolve_self_dict ctx parent hd] at h
    simp only [Except.ok.injEq, Prod.mk.injEq] at h
    rw [← h.2]
    simp [writeKeys]
  · obtain ⟨val, pl, hctx, hl, hpl⟩ :=
      resolve_self_nondict (by simpa using hd) h
    subst hl
    rw [writeKeys_append, hpl, List.nil_append]
    simp [writeKeys]

theorem gccv_keys_spec : ∀ n : Nat,
    (∀ (r : Renderer) (o : Oracle) (ni : Bool) (v : CookiecutterVariable)
      (ctx : Ctx) (parent : String) (ctx2 : Ctx) (lg : Log),
      varSize v ≤ n →
      get_cookiecutter_values r o ni v ctx parent = .ok (ctx2, lg) →
      ctx2.map Prod.fst = (writeKeys lg).foldl keyInsert (ctx.map Prod.fst)) ∧
    (∀ (r : Renderer) (o : Oracle) (ni : Bool)
      (vs : List CookiecutterVariable) (key : String) (ctx : Ctx)
      (ctx2 : Ctx) (lg : Log),
      varListSize vs ≤ n →
      gccv_branches r o ni vs key ctx = .ok (ctx2, lg) →
      ctx2.map Prod.fst = (writeKeys lg).foldl keyInsert (ctx.map Prod.fst)) := by
  intro n
  induction n with
  | zero =>
      constructor
      · intro r o ni v ctx parent ctx2 lg hle _
        exact absurd hle (by have := varSize_pos v; omega)
      · intro r o ni vs key ctx ctx2 lg hle h
        cases vs with
        | nil =>
            simp only [gccv_branches, Except.ok.injEq, Prod.mk.injEq] at h
            obtain ⟨h1, h2⟩ := h
            subst h1
            subst h2
            simp [writeKeys]
        | cons b rest =>
            exact absurd hle
              (by have := varSize_pos b; simp only [varListSize]; omega)
  | succ n ih =>
      have hA : ∀ (r : Renderer) (o : Oracle) (ni : Bool)
          (v : CookiecutterVariable) (ctx : Ctx) (parent : String)
          (ctx2 : Ctx) (lg : Log),
          varSize v ≤ n + 1 →
          get_cookiecutter_values r o ni v ctx parent = .ok (ctx2, lg) →
          ctx2.map Prod.fst = (writeKeys lg).foldl keyInsert (ctx.map Prod.fst) := by
        intro r o ni v ctx parent ctx2 lg hle h
        obtain ⟨nm, value, pr, vs, m, md⟩ := v
        simp only [varSize] at hle
        simp only [get_cookiecutter_values] at h
        obtain ⟨p1, h1, h2⟩ := except_bind_ok_iff h
        obtain ⟨c1, m1⟩ := p1
        obtain ⟨p2, h3, h4⟩ := except_bind_ok_iff h2
        obtain ⟨c2, m2⟩ := p2
        simp only [Except.ok.injEq, Prod.mk.injEq] at h4
        obtain ⟨hc, hl⟩ := h4
        subst hc
        subst hl
        rw [writeKeys_append, List.foldl_append]
        rw [← resolve_self_keys h1]
        exact ih.2 r o ni vs (parent ++ nm) c1 _ m2 (by omega) h3
      refine ⟨hA, ?_⟩
      intro r o ni vs key
      induction vs with
      | nil =>
          intro ctx ctx2 lg hle h
          simp only [gccv_branches, Except.ok.injEq, Prod.mk.injEq] at h
          obtain ⟨h1, h2⟩ := h
          subst h1
          subst h2
          simp [writeKeys]
      | cons b rest ihrest =>
          intro ctx ctx2 lg hle h
          have hle2 : varListSize rest ≤ n + 1 := by
            have := varSize_pos b
            simp only [varListSize] at hle
            omega
          have hleb : varSize b ≤ n + 1 := by
            simp only [varListSize] at hle
            omega
          simp only [gccv_branches] at h
          cases hst : ctxGet? ctx key with
          | none => simp only [hst] at h; exact absurd h (by simp)
          | some stored =>
              simp only [hst] at h
              by_cases hm : (b.matchesVal == stored) = true
              · rw [if_pos hm] at h
                obtain ⟨p1, h1, h2⟩ := except_bind_ok_iff h
                obtain ⟨c1, m1⟩ := p1
                obtain ⟨p2, h3, h4⟩ := except_bind_ok_iff h2
                obtain ⟨c2, m2⟩ := p2
                simp only [Except.ok.injEq, Prod.mk.injEq] at h4
                obtain ⟨hc, hl⟩ := h4
                subst hc
                subst hl
                rw [writeKeys_append, List.foldl_append]
                rw [← hA r o ni b ctx (key ++ "/") c1 m1 hleb h1]
                exact ihrest c1 _ m2 hle2 h3
              · rw [if_neg hm] at h
                exact ihrest ctx ctx2 lg hle2 h

theorem gccv_writes_spec : ∀ n : Nat,
    (∀ (r : Renderer) (o : Oracle) (ni : Bool) (v : CookiecutterVariable)
      (ctx : Ctx) (parent : String) (ctx2 : Ctx) (lg : Log),
      varSize v ≤ n →
      get_cookiecutter_values r o ni v ctx parent = .ok (ctx2, lg) →
      List.Sublist (writeKeys lg) (nodeKeys v parent)) ∧
    (∀ (r : Renderer) (o : Oracle) (ni : Bool)
      (vs : List CookiecutterVariable) (key : String) (ctx : Ctx)
      (ctx2 : Ctx) (lg : Log),
      varListSize vs ≤ n →
      gccv_branches r o ni vs key ctx = .ok (ctx2, lg) →
      List.Sublist (writeKeys lg) (nodeKeysList vs (key ++ "/"))) := by
  intro n
  induction n with
  | zero =>
      constructor
      · intro r o ni v ctx parent ctx2 lg hle _
        exact absurd hle (by have := varSize_pos v; omega)
      · intro r o ni vs key ctx ctx2 lg hle h
        cases vs with
        | nil =>
            simp only [gccv_branches, Except.ok.injEq, Prod.mk.injEq] at h
            rw [← h.2]
            simp [writeKeys]
        | cons b rest =>
            exact absurd hle
              (by have := varSize_pos b; simp only [varListSize]; omega)
  | succ n ih =>
      have hA : ∀ (r : Renderer) (o : Oracle) (ni : Bool)
          (v : CookiecutterVariable) (ctx : Ctx) (parent : String)
          (ctx2 : Ctx) (lg : Log),
          varSize v ≤ n + 1 →
          get_cookiecutter_values r o ni v ctx parent = .ok (ctx2, lg) →
          List.Sublist (writeKeys lg) (nodeKeys v parent) := by
        intro r o ni v ctx parent ctx2 lg hle h
        obtain ⟨nm, value, pr, vs, m, md⟩ := v
        simp only [varSize] at hle
        simp only [get_cookiecutter_values] at h
        obtain ⟨p1, h1, h2⟩ := except_bind_ok_iff h
        obtain ⟨c1, m1⟩ := p1
        obtain ⟨p2, h3, h4⟩ := except_bind_ok_iff h2
        obtain ⟨c2, m2⟩ := p2
        simp only [Except.ok.injEq, Prod.mk.injEq] at h4
        obtain ⟨hc, hl⟩ := h4
        subst hl
        rw [writeKeys_append, nodeKeys_def]
        simp only [CookiecutterVariable.name, CookiecutterVariable.subvars]
        have hs1 := resolve_self_writes h1
        have hs2 := ih.2 r o ni vs (parent ++ nm) c1 _ m2 (by omega) h3
        exact List.Sublist.append hs1 hs2
      refine ⟨hA, ?_⟩
      intro r o ni vs key
      induction vs with
      | nil =>
          intro ctx ctx2 lg hle h
          simp only [gccv_branches, Except.ok.injEq, Prod.mk.injEq] at h
          rw [← h.2]
          simp [writeKeys]
      | cons b rest ihrest =>
          intro ctx ctx2 lg hle h
          have hle2 : varListSize rest ≤ n + 1 := by
            have := varSize_pos b
            simp only [varListSize] at hle
            omega
          have hleb : varSize b ≤ n + 1 := by
            simp only [varListSize] at hle
            omega
          simp only [gccv_branches] at h
          cases hst : ctxGet? ctx key with
          | none => simp only [hst] at h; exact absurd h (by simp)
          | some stored =>
              simp only [hst] at h
              rw [nodeKeysList_cons]
              by_cases hm : (b.matchesVal == stored) = true
              · rw [if_pos hm] at h
                obtain ⟨p1, h1, h2⟩ := except_bind_ok_iff h
                obtain ⟨c1, m1⟩ := p1
                obtain ⟨p2, h3, h4⟩ := except_bind_ok_iff h2
                obtain ⟨c2, m2⟩ := p2
                simp only [Except.ok.injEq, Prod.mk.injEq] at h4
                obtain ⟨hc, hl⟩ := h4
                subst hl
                rw [writeKeys_append]
                exact List.Sublist.append (hA r o ni b ctx (key ++ "/") c1 m1 hleb h1)
                  (ihrest c1 _ m2 hle2 h3)
              · rw [if_neg hm] at h
                exact (ihrest ctx ctx2 lg hle2 h).trans
                  (List.sublist_append_right _ _)

/-! ### Pass-level lemmas -/

theorem pass1_step_keys {r : Renderer} {o : Oracle} {ni : Bool}
    {v : CookiecutterVariable} {ctx ctx1 : Ctx} {lg : Log}
    (h : pass1_step r o ni v ctx = .ok (ctx1, lg)) :
    ctx1.map Prod.fst = (writeKeys lg).foldl keyInsert (ctx.map Prod.fst) := by
  unfold pass1_step at h
  by_cases hc1 : (strStartsWith v.name "_" && !(strStartsWith v.name "__")) = true
  · rw [if_pos hc1] at h
    simp only [Except.ok.injEq, Prod.mk.injEq] at h
    obtain ⟨h1, h2⟩ := h
    subst h1
    subst h2
    simp only [writeKeys, List.filterMap_cons, List.filterMap_nil, List.foldl]
    exact map_fst_ctxSet ctx v.name v.value
  · rw [if_neg hc1] at h
    by_cases hc2 : strStartsWith v.name "__" = true
    · rw [if_pos hc2] at h
      cases hrv : render_variable r ctx v.value with
      | error e => simp only [hrv] at h; exact absurd h (by simp)
      | ok val =>
          simp only [hrv, Except.ok.injEq, Prod.mk.injEq] at h
          obtain ⟨h1, h2⟩ := h
          subst h1
          subst h2
          simp only [writeKeys, List.filterMap_cons, List.filterMap_nil, List.foldl]
          exact map_fst_ctxSet ctx v.name val
    · rw [if_neg hc2] at h
      cases hg : get_cookiecutter_values r o ni v ctx "" with
      | error e =>
          simp only [hg] at h
          cases e <;> exact absurd h (by simp)
      | ok p =>
          simp only [hg] at h
          obtain ⟨c, l⟩ := p
          simp only [Except.ok.injEq, Prod.mk.injEq] at h
          obtain ⟨h1, h2⟩ := h
          subst h1
          subst h2
          exact (gccv_keys_spec (varSize v)).1 r o ni v ctx "" c l le_rfl hg

theorem pass1_step_writes {r : Renderer} {o : Oracle} {ni : Bool}
    {v : CookiecutterVariable} {ctx ctx1 : Ctx} {lg : Log}
    (h : pass1_step r o ni v ctx = .ok (ctx1, lg)) :
    List.Sublist (writeKeys lg) (nodeKeys v "") := by
  unfold pass1_step at h
  by_cases hc1 : (strStartsWith v.name "_" && !(strStartsWith v.name "__")) = true
  · rw [if_pos hc1] at h
    simp only [Except.ok.injEq, Prod.mk.injEq] at h
    rw [← h.2]
    rw [nodeKeys_def, str_empty_append]
    simp only [writeKeys, List.filterMap_cons, List.filterMap_nil]
    exact List.Sublist.cons₂ _ (List.nil_sublist _)
  · rw [if_neg hc1] at h
    by_cases hc2 : strStartsWith v.name "__" = true
    · rw [if_pos hc2] at h
      cases hrv : render_variable r ctx v.value with
      | error e => simp only [hrv] at h; exact absurd h (by simp)
      | ok val =>
          simp only [hrv, Except.ok.injEq, Prod.mk.injEq] at h
          rw [← h.2]
          rw [nodeKeys_def, str_empty_append]
          simp only [writeKeys, List.filterMap_cons, List.filterMap_nil]
          exact List.Sublist.cons₂ _ (List.nil_sublist _)
    · rw [if_neg hc2] at h
      cases hg : get_cookiecutter_values r o ni v ctx "" with
      | error e =>
          simp only [hg] at h
          cases e <;> exact absurd h (by simp)
      | ok p =>
          simp only [hg] at h
          obtain ⟨c, l⟩ := p
          simp only [Except.ok.injEq, Prod.mk.injEq] at h
          rw [← h.2]
          exact (gccv_writes_spec (varSize v)).1 r o ni v ctx "" c l le_rfl hg

theorem pass1_step_public_dict {r : Renderer} {o : Oracle} {ni : Bool}
    {v : CookiecutterVariable} {ctx ctx1 : Ctx} {lg : Log}
    (h : pass1_step r o ni v ctx = .ok (ctx1, lg))
    (hd : v.value.isDict = true)
    (hpub : strStartsWith v.name "_" = false)
    (hfresh : containsKey ctx v.name = false) :
    ctx1 = ctx ∧ lg = [] := by
  unfold pass1_step at h
  have hc2 : strStartsWith v.name "__" = false := by
    by_contra hx
    rw [Bool.not_eq_false] at hx
    rw [strStartsWith_double_single hx] at hpub
    cases hpub
  rw [if_neg (by simp [hpub]), if_neg (by simp [hc2])] at h
  have hself : resolve_self r o ni v ctx "" = .ok (ctx, []) :=
    resolve_self_dict ctx "" hd
  have hnone : ctxGet? ctx ("" ++ v.name) = none := by
    rw [str_empty_append]
    exact ctxGet?_eq_none_iff.mpr hfresh
  obtain ⟨nm, value, pr, vs, m, md⟩ := v
  simp only [CookiecutterVariable.name] at hnone
  simp only [get_cookiecutter_values, hself, except_ok_bind] at h
  cases vs with
  | nil =>
      simp only [gccv_branches, except_ok_bind] at h
      simp at h
      exact ⟨h.1.symm, h.2⟩
  | cons b bs =>
      simp only [gccv_branches, hnone, except_error_bind] at h
      simp at h

theorem containsKey_of_keys_foldl {c c2 : Ctx} {ws : List String}
    (hk : c2.map Prod.fst = ws.foldl keyInsert (c.map Prod.fst)) {k : String}
    (h : containsKey c k = true) : containsKey c2 k = true := by
  rw [containsKey_iff_mem] at h ⊢
  rw [hk]
  exact mem_foldl_keyInsert_iff.mpr (Or.inl h)

theorem containsKey_ctxSet_self {α : Type} (c : List (String × α)) (k : String)
    (v : α) : containsKey (ctxSet c k v) k = true := by
  by_contra hx
  rw [Bool.not_eq_true] at hx
  have := ctxGet?_eq_none_iff.mpr hx
  rw [ctxGet?_ctxSet_self] at this
  cases this

theorem run_pass1_keys {r : Renderer} {o : Oracle} {ni : Bool} :
    ∀ (vars : List CookiecutterVariable) {ctx ctx1 : Ctx} {lg : Log},
    run_pass1 r o ni vars ctx = .ok (ctx1, lg) →
    ctx1.map Prod.fst = (writeKeys lg).foldl keyInsert (ctx.map Prod.fst) := by
  intro vars
  induction vars with
  | nil =>
      intro ctx ctx1 lg h
      simp only [run_pass1, Except.ok.injEq, Prod.mk.injEq] at h
      rw [← h.1, ← h.2]
      simp [writeKeys]
  | cons w rest ih =>
      intro ctx ctx1 lg h
      simp only [run_pass1] at h
      obtain ⟨p1, h1, h2⟩ := except_bind_ok_iff h
      obtain ⟨c1, m1⟩ := p1
      obtain ⟨p2, h3, h4⟩ := except_bind_ok_iff h2
      obtain ⟨c2, m2⟩ := p2
      simp only [Except.ok.injEq, Prod.mk.injEq] at h4
      obtain ⟨hc, hl⟩ := h4
      subst hc
      subst hl
      rw [writeKeys_append, List.foldl_append, ← pass1_step_keys h1]
      exact ih h3

theorem run_pass1_writes {r : Renderer} {o : Oracle} {ni : Bool} :
    ∀ (vars : List CookiecutterVariable) {ctx ctx1 : Ctx} {lg : Log},
    run_pass1 r o ni vars ctx = .ok (ctx1, lg) →
    List.Sublist (writeKeys lg) (nodeKeysList vars "") := by
  intro vars
  induction vars with
  | nil =>
      intro ctx ctx1 lg h
      simp only [run_pass1, Except.ok.injEq, Prod.mk.injEq] at h
      rw [← h.2]
      simp [writeKeys, nodeKeysList_nil]
  | cons w rest ih =>
      intro ctx ctx1 lg h
      simp only [run_pass1] at h
      obtain ⟨p1, h1, h2⟩ := except_bind_ok_iff h
      obtain ⟨c1, m1⟩ := p1
      obtain ⟨p2, h3, h4⟩ := except_bind_ok_iff h2
      obtain ⟨c2, m2⟩ := p2
      simp only [Except.ok.injEq, Prod.mk.injEq] at h4
      obtain ⟨hc, hl⟩ := h4
      subst hl
      rw [writeKeys_append, nodeKeysList_cons]
      exact List.Sublist.append (pass1_step_writes h1) (ih h3)

theorem pass1_step_nondict_present {r : Renderer} {o : Oracle} {ni : Bool}
    {v : CookiecutterVariable} {ctx ctx1 : Ctx} {lg : Log}
    (h : pass1_step r o ni v ctx = .ok (ctx1, lg))
    (hd : v.value.isDict = false) :
    containsKey ctx1 v.name = true := by
  unfold pass1_step at h
  by_cases hc1 : (strStartsWith v.name "_" && !(strStartsWith v.name "__")) = true
  · rw [if_pos hc1] at h
    simp only [Except.ok.injEq, Prod.mk.injEq] at h
    rw [← h.1]
    exact containsKey_ctxSet_self ctx v.name v.value
  · rw [if_neg hc1] at h
    by_cases hc2 : strStartsWith v.name "__" = true
    · rw [if_pos hc2] at h
      cases hrv : render_variable r ctx v.value with
      | error e => simp only [hrv] at h; exact absurd h (by simp)
      | ok val =>
          simp only [hrv, Except.ok.injEq, Prod.mk.injEq] at h
          rw [← h.1]
          exact containsKey_ctxSet_self ctx v.name val
    · rw [if_neg hc2] at h
      cases hg : get_cookiecutter_values r o ni v ctx "" with
      | error e =>
          simp only [hg] at h
          cases e <;> exact absurd h (by simp)
      | ok p =>
          simp only [hg] at h
          obtain ⟨c, l⟩ := p
          simp only [Except.ok.injEq, Prod.mk.injEq] at h
          obtain ⟨h1, h2⟩ := h
          subst h1
          obtain ⟨nm, value, pr, vs, m, md⟩ := v
          simp only [get_cookiecutter_values] at hg
          obtain ⟨p1, hs1, hs2⟩ := except_bind_ok_iff hg
          obtain ⟨ca, la⟩ := p1
          obtain ⟨val, pl, hctx, -, -⟩ := resolve_self_nondict hd hs1
          obtain ⟨p2, hb1, hb2⟩ := except_bind_ok_iff hs2
          obtain ⟨cb, lb⟩ := p2
          simp only [Except.ok.injEq, Prod.mk.injEq] at hb2
          have hca : containsKey ca
              (CookiecutterVariable.mk nm value pr vs m md).name = true := by
            rw [hctx, str_empty_append]
            exact containsKey_ctxSet_self ctx _ val
          have hkeys := (gccv_keys_spec (varListSize vs)).2 r o ni vs
            ("" ++ nm) ca cb lb le_rfl hb1
          rw [← hb2.1]
          exact containsKey_of_keys_foldl hkeys hca

theorem run_pass1_present {r : Renderer} {o : Oracle} {ni : Bool} :
    ∀ (vars : List CookiecutterVariable) {ctx ctx1 : Ctx} {lg : Log},
    run_pass1 r o ni vars ctx = .ok (ctx1, lg) →
    ∀ v ∈ vars, v.value.isDict = false → containsKey ctx1 v.name = true := by
  intro vars
  induction vars with
  | nil => intro ctx ctx1 lg _ v hv; cases hv
  | cons w rest ih =>
      intro ctx ctx1 lg h v hv hd
      simp only [run_pass1] at h
      obtain ⟨p1, h1, h2⟩ := except_bind_ok_iff h
      obtain ⟨c1, m1⟩ := p1
      obtain ⟨p2, h3, h4⟩ := except_bind_ok_iff h2
      obtain ⟨c2, m2⟩ := p2
      simp only [Except.ok.injEq, Prod.mk.injEq] at h4
      obtain ⟨hc, hl⟩ := h4
      subst hc
      rcases List.mem_cons.mp hv with rfl | hv2
      · exact containsKey_of_keys_foldl (run_pass1_keys rest h3)
          (pass1_step_nondict_present h1 hd)
      · exact ih h3 v hv2 hd

theorem render_variable_dict_shape {r : Renderer} {ctx : Ctx}
    {d : List (RawVal × RawVal)} {val : RawVal}
    (h : render_variable r ctx (.dict d) = .ok val) :
    ∃ ys, val = .dict ys := by
  simp only [render_variable] at h
  cases hp : render_pairs r ctx d with
  | error e => rw [hp] at h; cases h
  | ok ys =>
      rw [hp] at h
      simp only [Except.map, Except.ok.injEq] at h
      exact ⟨ys, h.symm⟩

theorem pass2_step_cases {r : Renderer} {o : Oracle} {ni : Bool}
    {v : CookiecutterVariable} {ctx ctx1 : Ctx} {lg : Log}
    (h : pass2_step r o ni v ctx = .ok (ctx1, lg)) :
    (ctx1 = ctx ∧ lg = []) ∨
    (v.value.isDict = true ∧
      ¬(strStartsWith v.name "_" = true ∧ strStartsWith v.name "__" = false) ∧
      ∃ val pl, ctx1 = ctxSet ctx v.name val ∧
        lg = pl ++ [.write v.name val] ∧ writeKeys pl = []) := by
  unfold pass2_step at h
  by_cases hc1 : (strStartsWith v.name "_" && !(strStartsWith v.name "__")) = true
  · rw [if_pos hc1] at h
    simp only [Except.ok.injEq, Prod.mk.injEq] at h
    exact Or.inl ⟨h.1.symm, h.2.symm⟩
  · rw [if_neg hc1] at h
    have hnm : ¬(strStartsWith v.name "_" = true ∧ strStartsWith v.name "__" = false) := by
      intro ⟨ha, hb⟩
      exact hc1 (by simp [ha, hb])
    cases hval : v.value with
    | dict d =>
        rw [hval] at h
        cases hrv : render_variable r ctx (.dict d) with
        | error e => simp only [hrv] at h; exact absurd h (by simp)
        | ok val =>
            simp only [hrv] at h
            by_cases hc3 : (!ni && !(strStartsWith v.name "__")) = true
            · rw [if_pos hc3] at h
              obtain ⟨ys, hys⟩ := render_variable_dict_shape hrv
              subst hys
              simp only [read_user_dict, except_ok_bind, Except.ok.injEq,
                Prod.mk.injEq] at h
              refine Or.inr ⟨by simp [hval, RawVal.isDict], hnm,
                .dict (o.askDict v.name (.dict ys)), [.promptDict v.name],
                h.1.symm, by rw [← h.2]; rfl, rfl⟩
            · rw [if_neg hc3] at h
              simp only [Except.ok.injEq, Prod.mk.injEq] at h
              exact Or.inr ⟨by simp [hval, RawVal.isDict], hnm, val, [],
                h.1.symm, by rw [← h.2]; rfl, rfl⟩
    | null => rw [hval] at h; simp only [Except.ok.injEq, Prod.mk.injEq] at h
              exact Or.inl ⟨h.1.symm, h.2.symm⟩
    | bool b => rw [hval] at h; simp only [Except.ok.injEq, Prod.mk.injEq] at h
                exact Or.inl ⟨h.1.symm, h.2.symm⟩
    | int n => rw [hval] at h; simp only [Except.ok.injEq, Prod.mk.injEq] at h
               exact Or.inl ⟨h.1.symm, h.2.symm⟩
    | str s => rw [hval] at h; simp only [Except.ok.injEq, Prod.mk.injEq] at h
               exact Or.inl ⟨h.1.symm, h.2.symm⟩
    | list xs => rw [hval] at h; simp only [Except.ok.injEq, Prod.mk.injEq] at h
                 exact Or.inl ⟨h.1.symm, h.2.symm⟩

theorem pass2_step_keys {r : Renderer} {o : Oracle} {ni : Bool}
    {v : CookiecutterVariable} {ctx ctx1 : Ctx} {lg : Log}
    (h : pass2_step r o ni v ctx = .ok (ctx1, lg)) :
    ctx1.map Prod.fst = (writeKeys lg).foldl keyInsert (ctx.map Prod.fst) := by
  rcases pass2_step_cases h with ⟨h1, h2⟩ | ⟨-, -, val, pl, h1, h2, h3⟩
  · subst h1; subst h2; simp [writeKeys]
  · subst h1
    subst h2
    rw [writeKeys_append, h3, List.nil_append]
    simp only [writeKeys, List.filterMap_cons, List.filterMap_nil, List.foldl]
    exact map_fst_ctxSet ctx v.name val

theorem run_pass2_keys {r : Renderer} {o : Oracle} {ni : Bool} :
    ∀ (vars : List CookiecutterVariable) {ctx ctx1 : Ctx} {lg : Log},
    run_pass2 r o ni vars ctx = .ok (ctx1, lg) →
    ctx1.map Prod.fst = (writeKeys lg).foldl keyInsert (ctx.map Prod.fst) := by
  intro vars
  induction vars with
  | nil =>
      intro ctx ctx1 lg h
      simp only [run_pass2, Except.ok.injEq, Prod.mk.injEq] at h
      rw [← h.1, ← h.2]
      simp [writeKeys]
  | cons w rest ih =>
      intro ctx ctx1 lg h
      simp only [run_pass2] at h
      obtain ⟨p1, h1, h2⟩ := except_bind_ok_iff h
      obtain ⟨c1, m1⟩ := p1
      obtain ⟨p2, h3, h4⟩ := except_bind_ok_iff h2
      obtain ⟨c2, m2⟩ := p2
      simp only [Except.ok.injEq, Prod.mk.injEq] at h4
      obtain ⟨hc, hl⟩ := h4
      subst hc
      subst hl
      rw [writeKeys_append, List.foldl_append, ← pass2_step_keys h1]
      exact ih h3

theorem run_pass2_append {r : Renderer} {o : Oracle} {ni : Bool} :
    ∀ (a b : List CookiecutterVariable) (ctx : Ctx),
    run_pass2 r o ni (a ++ b) ctx
      = (do
          let (c1, l1) ← run_pass2 r o ni a ctx
          let (c2, l2) ← run_pass2 r o ni b c1
          Except.ok (c2, l1 ++ l2)) := by
  intro a
  induction a with
  | nil =>
      intro b ctx
      simp only [List.nil_append, run_pass2, except_ok_bind]
      cases run_pass2 r o ni b ctx with
      | error e => rfl
      | ok p => obtain ⟨c, l⟩ := p; simp [except_ok_bind]
  | cons w rest ih =>
      intro b ctx
      simp only [List.cons_append, run_pass2]
      cases hw : pass2_step r o ni w ctx with
      | error e => simp [except_error_bind]
      | ok p =>
          obtain ⟨c1, m1⟩ := p
          simp only [except_ok_bind, List.append_eq]
          rw [ih b c1]
          cases hr : run_pass2 r o ni rest c1 with
          | error e => simp [except_error_bind]
          | ok q =>
              obtain ⟨c2, m2⟩ := q
              simp only [except_ok_bind]
              cases hb : run_pass2 r o ni b c2 with
              | error e => simp [except_error_bind]
              | ok s =>
                  obtain ⟨c3, m3⟩ := s
                  simp [except_ok_bind, List.append_assoc]

theorem run_pass2_preserve {r : Renderer} {o : Oracle} {ni : Bool} :
    ∀ (vars : List CookiecutterVariable) {ctx ctx1 : Ctx} {lg : Log} (k : String),
    run_pass2 r o ni vars ctx = .ok (ctx1, lg) →
    (∀ v ∈ vars, v.value.isDict = true → v.name ≠ k) →
    ctxGet? ctx1 k = ctxGet? ctx k := by
  intro vars
  induction vars with
  | nil =>
      intro ctx ctx1 lg k h _
      simp only [run_pass2, Except.ok.injEq, Prod.mk.injEq] at h
      rw [← h.1]
  | cons w rest ih =>
      intro ctx ctx1 lg k h hne
      simp only [run_pass2] at h
      obtain ⟨p1, h1, h2⟩ := except_bind_ok_iff h
      obtain ⟨c1, m1⟩ := p1
      obtain ⟨p2, h3, h4⟩ := except_bind_ok_iff h2
      obtain ⟨c2, m2⟩ := p2
      simp only [Except.ok.injEq, Prod.mk.injEq] at h4
      obtain ⟨hc, hl⟩ := h4
      subst hc
      rw [ih k h3 (fun u hu hud => hne u (List.mem_cons_of_mem _ hu) hud)]
      rcases pass2_step_cases h1 with ⟨hc1, -⟩ | ⟨hd, -, val, pl, hc1, -, -⟩
      · rw [hc1]
      · rw [hc1]
        exact ctxGet?_ctxSet_ne ctx val (hne w (List.mem_cons_self _ _) hd)

theorem run_pass2_writes_mem {r : Renderer} {o : Oracle} {ni : Bool} :
    ∀ (vars : List CookiecutterVariable) {ctx ctx1 : Ctx} {lg : Log},
    run_pass2 r o ni vars ctx = .ok (ctx1, lg) →
    ∀ k ∈ writeKeys lg, ∃ v ∈ vars, v.name = k ∧ v.value.isDict = true ∧
      ¬(strStartsWith v.name "_" = true ∧ strStartsWith v.name "__" = false) := by
  intro vars
  induction vars with
  | nil =>
      intro ctx ctx1 lg h k hk
      simp only [run_pass2, Except.ok.injEq, Prod.mk.injEq] at h
      rw [← h.2] at hk
      simp [writeKeys] at hk
  | cons w rest ih =>
      intro ctx ctx1 lg h k hk
      simp only [run_pass2] at h
      obtain ⟨p1, h1, h2⟩ := except_bind_ok_iff h
      obtain ⟨c1, m1⟩ := p1
      obtain ⟨p2, h3, h4⟩ := except_bind_ok_iff h2
      obtain ⟨c2, m2⟩ := p2
      simp only [Except.ok.injEq, Prod.mk.injEq] at h4
      obtain ⟨hc, hl⟩ := h4
      subst hl
      rw [writeKeys_append] at hk
      rcases List.mem_append.mp hk with hk1 | hk2
      · rcases pass2_step_cases h1 with ⟨-, hl0⟩ | ⟨hd, hnm, val, pl, -, hl0, hpl⟩
        · subst hl0; simp [writeKeys] at hk1
        · subst hl0
          rw [writeKeys_append, hpl, List.nil_append] at hk1
          simp only [writeKeys, List.filterMap_cons, List.filterMap_nil,
            List.mem_singleton] at hk1
          exact ⟨w, List.mem_cons_self _ _, hk1.symm, hd, hnm⟩
      · obtain ⟨v, hv, hrest⟩ := ih h3 k hk2
        exact ⟨v, List.mem_cons_of_mem _ hv, hrest⟩

theorem run_pass2_writes_sublist {r : Renderer} {o : Oracle} {ni : Bool} :
    ∀ (vars : List CookiecutterVariable) {ctx ctx1 : Ctx} {lg : Log},
    run_pass2 r o ni vars ctx = .ok (ctx1, lg) →
    List.Sublist (writeKeys lg) (nodeKeysList vars "") := by
  intro vars
  induction vars with
  | nil =>
      intro ctx ctx1 lg h
      simp only [run_pass2, Except.ok.injEq, Prod.mk.injEq] at h
      rw [← h.2]
      simp [writeKeys, nodeKeysList_nil]
  | cons w rest ih =>
      intro ctx ctx1 lg h
      simp only [run_pass2] at h
      obtain ⟨p1, h1, h2⟩ := except_bind_ok_iff h
      obtain ⟨c1, m1⟩ := p1
      obtain ⟨p2, h3, h4⟩ := except_bind_ok_iff h2
      obtain ⟨c2, m2⟩ := p2
      simp only [Except.ok.injEq, Prod.mk.injEq] at h4
      obtain ⟨hc, hl⟩ := h4
      subst hl
      rw [writeKeys_append, nodeKeysList_cons]
      refine List.Sublist.append ?_ (ih h3)
      rcases pass2_step_cases h1 with ⟨-, hl0⟩ | ⟨-, -, val, pl, -, hl0, hpl⟩
      · subst hl0; simp [writeKeys]
      · subst hl0
        rw [writeKeys_append, hpl, List.nil_append]
        simp only [writeKeys, List.filterMap_cons, List.filterMap_nil]
        rw [nodeKeys_def, str_empty_append]
        exact List.Sublist.cons₂ _ (List.nil_sublist _)

theorem name_mem_nodeKeysList {v : CookiecutterVariable} :
    ∀ {vars : List CookiecutterVariable}, v ∈ vars →
    v.name ∈ nodeKeysList vars "" := by
  intro vars
  induction vars with
  | nil => intro h; cases h
  | cons w rest ih =>
      intro h
      rw [nodeKeysList_cons]
      rcases List.mem_cons.mp h with rfl | h2
      · rw [nodeKeys_def, str_empty_append]
        exact List.mem_append.mpr (Or.inl (List.mem_cons_self _ _))
      · exact List.mem_append.mpr (Or.inr (ih h2))

theorem nodeKeys_sub_of_mem {v : CookiecutterVariable} {parent : String} :
    ∀ {vars : List CookiecutterVariable}, v ∈ vars →
    ∀ k ∈ nodeKeys v parent, k ∈ nodeKeysList vars parent := by
  intro vars
  induction vars with
  | nil => intro h; cases h
  | cons w rest ih =>
      intro h k hk
      rw [nodeKeysList_cons]
      rcases List.mem_cons.mp h with rfl | h2
      · exact List.mem_append.mpr (Or.inl hk)
      · exact List.mem_append.mpr (Or.inr (ih h2 k hk))

theorem topNames_nodup :
    ∀ {vars : List CookiecutterVariable}, (nodeKeysList vars "").Nodup →
    (vars.map CookiecutterVariable.name).Nodup := by
  intro vars
  induction vars with
  | nil => intro _; simp
  | cons w rest ih =>
      intro h
      rw [nodeKeysList_cons] at h
      rw [List.nodup_append] at h
      obtain ⟨hw, hrest, hdisj⟩ := h
      rw [List.map_cons, List.nodup_cons]
      refine ⟨?_, ih hrest⟩
      intro hmem
      obtain ⟨u, hu, huname⟩ := List.mem_map.mp hmem
      have h1 : w.name ∈ nodeKeys w "" := by
        rw [nodeKeys_def, str_empty_append]
        exact List.mem_cons_self _ _
      have h2 : w.name ∈ nodeKeysList rest "" := by
        rw [← huname]
        exact name_mem_nodeKeysList hu
      exact hdisj h1 h2

theorem run_pass1_public_dict_unwritten {r : Renderer} {o : Oracle} {ni : Bool} :
    ∀ (vars : List CookiecutterVariable) {ctx ctx1 : Ctx} {lg : Log},
    run_pass1 r o ni vars ctx = .ok (ctx1, lg) →
    (nodeKeysList vars "").Nodup →
    (∀ v ∈ vars, v.value.isDict = true → strStartsWith v.name "_" = false →
        containsKey ctx v.name = false) →
    ∀ v ∈ vars, v.value.isDict = true → strStartsWith v.name "_" = false →
      v.name ∉ writeKeys lg := by
  intro vars
  induction vars with
  | nil => intro ctx ctx1 lg _ _ _ v hv; cases hv
  | cons w rest ih =>
      intro ctx ctx1 lg h hnd hfresh v hv hd hpub
      simp only [run_pass1] at h
      obtain ⟨p1, h1, h2⟩ := except_bind_ok_iff h
      obtain ⟨c1, m1⟩ := p1
      obtain ⟨p2, h3, h4⟩ := except_bind_ok_iff h2
      obtain ⟨c2, m2⟩ := p2
      simp only [Except.ok.injEq, Prod.mk.injEq] at h4
      obtain ⟨hc, hl⟩ := h4
      subst hl
      rw [nodeKeysList_cons, List.nodup_append] at hnd
      obtain ⟨hndw, hndrest, hdisj⟩ := hnd
      rw [writeKeys_append]
      rcases List.mem_cons.mp hv with rfl | hv2
      · obtain ⟨he1, he2⟩ := pass1_step_public_dict h1 hd hpub
          (hfresh v (List.mem_cons_self _ _) hd hpub)
        subst he2
        intro hmem
        rcases List.mem_append.mp hmem with hm1 | hm2
        · simp [writeKeys] at hm1
        · have hsub := (run_pass1_writes rest h3).subset hm2
          have hhead : v.name ∈ nodeKeys v "" := by
            rw [nodeKeys_def, str_empty_append]
            exact List.mem_cons_self _ _
          exact hdisj hhead hsub
      · have hfresh2 : ∀ u ∈ rest, u.value.isDict = true →
            strStartsWith u.name "_" = false → containsKey c1 u.name = false := by
          intro u hu hud hup
          rw [containsKey_eq_false_iff]
          intro hmem
          rw [pass1_step_keys h1] at hmem
          rcases mem_foldl_keyInsert_iff.mp hmem with hm1 | hm2
          · exact absurd (containsKey_iff_mem.mpr hm1)
              (by simp [hfresh u (List.mem_cons_of_mem _ hu) hud hup])
          · have hsub := (pass1_step_writes h1).subset hm2
            have hhead : u.name ∈ nodeKeysList rest "" := name_mem_nodeKeysList hu
            exact hdisj hsub hhead
        intro hmem
        rcases List.mem_append.mp hmem with hm1 | hm2
        · have hsub := (pass1_step_writes h1).subset hm1
          have hhead : v.name ∈ nodeKeysList rest "" := name_mem_nodeKeysList hv2
          exact hdisj hsub hhead
        · exact ih h3 hndrest hfresh2 v hv2 hd hpub hm2

/-- C2 counterexample: visibility of scalar siblings to a dict variable
DOES depend on declaration order — the double-marker dict `__d`
referencing sibling `x` resolves when declared after `x` (and is then
written in pass 1 AND pass 2, before `x`'s own step has run in the first
case), but aborts the whole resolution with an `UndefinedError` when
declared before `x`, because pass 1 renders it at its declaration
position. -/
theorem c2_dict_pass_counterexample :
    prompt_for_config xRenderer defaultOracle true [xVar, derivedDictVar]
      = .ok ([("x", RawVal.str "hello"),
              ("__d", RawVal.dict [(.str "a", .str "hello")])],
             [.write "x" (.str "hello"),
              .write "__d" (.dict [(.str "a", .str "hello")]),
              .write "__d" (.dict [(.str "a", .str "hello")])]) ∧
    prompt_for_config xRenderer defaultOracle true [derivedDictVar, xVar]
      = .error .undefined :=
  ⟨rfl, rfl⟩

/-- C2 amended: in non-interactive mode, a PUBLIC (non-marker) dict
variable receives its final value in pass 2, rendered against a context
in which every non-dict top-level variable is already present regardless
of declaration order, and the rendered value is what the returned context
holds under its name.  (Double-marker dict variables are additionally
rendered and stored during pass 1 at their declaration position, where
later scalars are not yet visible — see the counterexample.) -/
theorem c2_dict_pass_amended (r : Renderer) (o : Oracle)
    (pre post : List CookiecutterVariable) (v : CookiecutterVariable)
    (ctxF c1 cmid : Ctx) (lgF l1 l2 : Log)
    (hnd : (nodeKeysList (pre ++ v :: post) "").Nodup)
    (hok : prompt_for_config r o true (pre ++ v :: post) = .ok (ctxF, lgF))
    (hp1 : run_pass1 r o true (pre ++ v :: post) [] = .ok (c1, l1))
    (hp2pre : run_pass2 r o true pre c1 = .ok (cmid, l2))
    (hd : v.value.isDict = true)
    (hpub : strStartsWith v.name "_" = false) :
    (∀ w ∈ pre ++ v :: post, w.value.isDict = false →
        containsKey cmid w.name = true) ∧
    render_variable r cmid v.value ≠ .error () ∧
    (∀ rv, render_variable r cmid v.value = .ok rv →
        ctxGet? ctxF v.name = some rv) := by
  simp only [prompt_for_config] at hok
  obtain ⟨p1, hq1, hq2⟩ := except_bind_ok_iff hok
  obtain ⟨c1x, l1x⟩ := p1
  rw [hp1] at hq1
  simp only [Except.ok.injEq, Prod.mk.injEq] at hq1
  obtain ⟨hc1x, -⟩ := hq1
  subst hc1x
  obtain ⟨p2, hq3, hq4⟩ := except_bind_ok_iff hq2
  obtain ⟨cF, lF⟩ := p2
  simp only [Except.ok.injEq, Prod.mk.injEq] at hq4
  obtain ⟨hcF, -⟩ := hq4
  subst hcF
  rw [run_pass2_append] at hq3
  rw [hp2pre, except_ok_bind] at hq3
  obtain ⟨p3, hq5, hq6⟩ := except_bind_ok_iff hq3
  obtain ⟨cF2, lrest⟩ := p3
  simp only [Except.ok.injEq, Prod.mk.injEq] at hq6
  obtain ⟨hcF2, -⟩ := hq6
  subst hcF2
  simp only [run_pass2] at hq5
  obtain ⟨p4, hv1, hv2⟩ := except_bind_ok_iff hq5
  obtain ⟨cv, mv⟩ := p4
  obtain ⟨p5, hpost, hfin⟩ := except_bind_ok_iff hv2
  obtain ⟨cp, mp⟩ := p5
  simp only [Except.ok.injEq, Prod.mk.injEq] at hfin
  obtain ⟨hcp, -⟩ := hfin
  subst hcp
  have hnames := topNames_nodup hnd
  rw [List.map_append, List.map_cons, List.nodup_append] at hnames
  have hvpost : v.name ∉ post.map CookiecutterVariable.name :=
    (List.nodup_cons.mp hnames.2.1).1
  obtain ⟨nm, value, pr, vs, m, md⟩ := v
  simp only [CookiecutterVariable.value] at hd
  cases value with
  | dict d =>
      simp only [CookiecutterVariable.name] at hpub hvpost
      simp only [pass2_step, CookiecutterVariable.name,
        CookiecutterVariable.value] at hv1
      rw [if_neg (by simp [hpub])] at hv1
      cases hrv : render_variable r cmid (RawVal.dict d) with
      | error e =>
          simp only [hrv] at hv1
          exact absurd hv1 (by simp)
      | ok rv0 =>
          simp only [hrv] at hv1
          simp at hv1
          obtain ⟨hcv, -⟩ := hv1
          refine ⟨?_, ?_, ?_⟩
          · intro w hw hwd
            exact containsKey_of_keys_foldl (run_pass2_keys pre hp2pre)
              (run_pass1_present _ hp1 w hw hwd)
          · simp only [CookiecutterVariable.value]
            rw [hrv]
            simp
          · intro rv hrveq
            simp only [CookiecutterVariable.value] at hrveq
            rw [hrv] at hrveq
            simp only [Except.ok.injEq] at hrveq
            subst hrveq
            have hpres : ctxGet? cp nm = ctxGet? cv nm := by
              refine run_pass2_preserve post nm hpost ?_
              intro u hu hud
              intro he
              exact hvpost (he ▸ List.mem_map_of_mem CookiecutterVariable.name hu)
            simp only [CookiecutterVariable.name] at hpres ⊢
            rw [hpres, ← hcv]
            exact ctxGet?_ctxSet_self cmid nm rv0
  | null => simp [RawVal.isDict] at hd
  | bool b => simp [RawVal.isDict] at hd
  | int n => simp [RawVal.isDict] at hd
  | str s => simp [RawVal.isDict] at hd
  | list xs => simp [RawVal.isDict] at hd

/-- Concrete instantiation of `c2_dict_pass_amended`: the public dict
`files` is declared BEFORE the scalar `x` it references, yet resolution
succeeds with `files` rendered against a context containing `x`. -/
theorem c2_dict_pass_amended_witness :
    containsKey [("x", RawVal.str "hello")] xVar.name = true ∧
    render_variable xRenderer [("x", RawVal.str "hello")] filesVar.value
      ≠ .error () ∧
    ctxGet? [("x", RawVal.str "hello"),
             ("files", RawVal.dict [(.str "a", .str "hello")])] "files"
      = some (.dict [(.str "a", .str "hello")]) := by
  have h := c2_dict_pass_amended xRenderer defaultOracle [] [xVar] filesVar
    [("x", RawVal.str "hello"), ("files", RawVal.dict [(.str "a", .str "hello")])]
    [("x", RawVal.str "hello")] [("x", RawVal.str "hello")]
    [.write "x" (.str "hello"), .write "files" (.dict [(.str "a", .str "hello")])]
    [.write "x" (.str "hello")] []
    (by decide) (by rfl) (by rfl) (by rfl) (by rfl) (by rfl)
  exact ⟨h.1 xVar (by simp) (by rfl), h.2.1, h.2.2 _ (by rfl)⟩

/-- C5 counterexample: the resolved mapping is NOT append-only — the
double-marker dict variable `__d` (whose template renders differently as
the context grows, like `{{ cookiecutter | length }}`) is written in
pass 1 with one value and overwritten in pass 2 with a different value:
the write log holds `__d ↦ {"a": "0"}` and later `__d ↦ {"a": "2"}`. -/
theorem c5_append_only_counterexample :
    prompt_for_config lenRenderer defaultOracle true [lenDictVar, vVar]
      = .ok ([("__d", RawVal.dict [(.str "a", .str "2")]), ("x", RawVal.str "v")],
             [.write "__d" (.dict [(.str "a", .str "0")]),
              .write "x" (.str "v"),
              .write "__d" (.dict [(.str "a", .str "2")])]) ∧
    writeKeys [Event.write "__d" (.dict [(.str "a", .str "0")]),
               Event.write "x" (.str "v"),
               Event.write "__d" (.dict [(.str "a", .str "2")])]
      = ["__d", "x", "__d"] :=
  ⟨rfl, rfl⟩

/-- C5 amended: under distinct flat keys, each pass writes every key at
most once, and a key written by both passes is necessarily the name of a
double-marker dict-valued variable (written in pass 1 at its declaration
position and overwritten in pass 2, possibly with a different value);
the returned mapping's keys appear in first-write order. -/
theorem c5_append_only_amended (r : Renderer) (o : Oracle) (ni : Bool)
    (vars : List CookiecutterVariable) (ctxF c1 : Ctx) (l1 l2 : Log)
    (hnd : (nodeKeysList vars "").Nodup)
    (hp1 : run_pass1 r o ni vars [] = .ok (c1, l1))
    (hp2 : run_pass2 r o ni vars c1 = .ok (ctxF, l2)) :
    prompt_for_config r o ni vars = .ok (ctxF, l1 ++ l2) ∧
    (writeKeys l1).Nodup ∧
    (writeKeys l2).Nodup ∧
    (∀ k, k ∈ writeKeys l1 → k ∈ writeKeys l2 →
        isDoubleMarkerDictName vars k = true) ∧
    ctxF.map Prod.fst = firstKeys (writeKeys (l1 ++ l2)) := by
  refine ⟨?_, ?_, ?_, ?_, ?_⟩
  · simp [prompt_for_config, hp1, hp2, except_ok_bind]
  · exact (run_pass1_writes vars hp1).nodup hnd
  · exact (run_pass2_writes_sublist vars hp2).nodup hnd
  · intro k hk1 hk2
    obtain ⟨v, hv, hname, hvd, hnm⟩ := run_pass2_writes_mem vars hp2 k hk2
    subst hname
    by_cases hdm : strStartsWith v.name "__" = true
    · rw [isDoubleMarkerDictName, List.any_eq_true]
      exact ⟨v, hv, by simp [hvd, hdm]⟩
    · have hpub : strStartsWith v.name "_" = false := by
        by_contra hx
        rw [Bool.not_eq_false] at hx
        exact hnm ⟨hx, by simpa using hdm⟩
      have := run_pass1_public_dict_unwritten vars hp1 hnd
        (by intro u _ _ _; rfl) v hv hvd hpub
      exact absurd hk1 this
  · rw [run_pass2_keys vars hp2, run_pass1_keys vars hp1]
    simp [firstKeys, writeKeys_append, List.foldl_append]

/-- Concrete instantiation of `c5_append_only_amended`. -/
theorem c5_append_only_amended_witness :
    prompt_for_config lenRenderer defaultOracle true [lenDictVar, vVar]
      = .ok ([("__d", RawVal.dict [(.str "a", .str "2")]), ("x", RawVal.str "v")],
             [.write "__d" (.dict [(.str "a", .str "0")]),
              .write "x" (.str "v")]
              ++ [.write "__d" (.dict [(.str "a", .str "2")])]) ∧
    (writeKeys [Event.write "__d" (.dict [(.str "a", .str "0")]),
                Event.write "x" (.str "v")]).Nodup ∧
    isDoubleMarkerDictName [lenDictVar, vVar] "__d" = true ∧
    [("__d", RawVal.dict [(.str "a", .str "2")]),
     ("x", RawVal.str "v")].map Prod.fst
      = firstKeys (writeKeys
          ([Event.write "__d" (.dict [(.str "a", .str "0")]),
            Event.write "x" (.str "v")]
            ++ [Event.write "__d" (.dict [(.str "a", .str "2")])])) := by
  have h := c5_append_only_amended lenRenderer defaultOracle true
    [lenDictVar, vVar]
    [("__d", RawVal.dict [(.str "a", .str "2")]), ("x", RawVal.str "v")]
    [("__d", RawVal.dict [(.str "a", .str "0")]), ("x", RawVal.str "v")]
    [.write "__d" (.dict [(.str "a", .str "0")]), .write "x" (.str "v")]
    [.write "__d" (.dict [(.str "a", .str "2")])]
    (by decide) (by rfl) (by rfl)
  exact ⟨h.1, h.2.1, h.2.2.2.1 "__d" (by simp [writeKeys]) (by simp [writeKeys]),
    h.2.2.2.2⟩
